import Mathlib

/-!
Shallow embedding of the SetuBond matching engine
(`src/services/trading-service/src/matching-engine/matching-engine.service.ts`
together with the `Order` entity and the `TradingService` wrapper).

Modelling conventions:
* JavaScript `number` quantities and prices are modelled as `ℤ` (the engine
  only adds, subtracts, takes `min` and compares them); the derived
  `averagePrice` (the one field the engine computes with a division) is
  modelled exactly in `ℚ`.
* `Date` timestamps are modelled as `ℕ`; uuid / string identifiers as `String`.
* The JS `Map` of order books is an insertion-ordered association list, as
  `Map.set` appends new keys at the end.
* `Array.prototype.sort` is stable (ECMAScript 2019), so each in-place sort is
  modelled by `List.mergeSort`, which is stable.
* TypeORM repository/manager writes are modelled as list upserts keyed by `id`;
  a transaction accumulates its writes and applies them only on commit.
* DB-generated trade ids and the wall-clock `executedAt` field are outside the
  model: no claim mentions them.
-/

namespace SetuBond

/-- `OrderSide` enum of the order entity. -/
inductive OrderSide where
  | BUY
  | SELL
deriving DecidableEq

/-- `OrderType` enum of the order entity. -/
inductive OrderType where
  | MARKET
  | LIMIT
  | STOP_LOSS
  | ICEBERG
deriving DecidableEq

/-- `OrderStatus` enum of the order entity. -/
inductive OrderStatus where
  | PENDING
  | PARTIALLY_FILLED
  | FILLED
  | CANCELLED
  | REJECTED
  | EXPIRED
deriving DecidableEq

/-- `TimeInForce` enum of the order entity (GTC = Good Till Cancelled,
IOC = Immediate or Cancel, FOK = Fill or Kill). -/
inductive TimeInForce where
  | GTC
  | IOC
  | FOK
deriving DecidableEq

/-- The `Order` entity (fields the engine never reads — stop price, hidden
quantity, notes, expiry, metadata, update timestamp — are omitted). The
nullable `price` column is modelled as a plain `ℤ`: the engine reads it only
on the limit-order path, where it is always populated. -/
structure Order where
  id : String
  userId : String
  bondId : String
  orderType : OrderType
  side : OrderSide
  quantity : ℤ
  filledQuantity : ℤ
  price : ℤ
  status : OrderStatus
  timeInForce : TimeInForce
  averagePrice : Option ℚ
  createdAt : ℕ
deriving DecidableEq

/-- The in-memory `OrderBookEntry` interface of the matching engine. -/
structure OrderBookEntry where
  id : String
  price : ℤ
  quantity : ℤ
  remainingQuantity : ℤ
  timestamp : ℕ
deriving DecidableEq

/-- The `Trade` entity, restricted to the fields the matching path populates
(db-generated `id` and the wall-clock `executedAt` are outside the model). -/
structure Trade where
  bondId : String
  buyOrderId : String
  sellOrderId : String
  buyUserId : String
  sellUserId : String
  quantity : ℤ
  price : ℤ
  totalValue : ℤ
deriving DecidableEq

/-- One instrument's order book: `{ bids: OrderBookEntry[]; asks: OrderBookEntry[] }`. -/
structure OrderBook where
  bids : List OrderBookEntry
  asks : List OrderBookEntry
deriving DecidableEq

/-- The engine's mutable surroundings: the `orderBooks` map plus the two
persistent stores the repositories write to. -/
structure EngineState where
  books : List (String × OrderBook)
  ordersDb : List Order
  tradesDb : List Trade
deriving DecidableEq

/-- `Map.get` on the `orderBooks` map. -/
def booksGet : List (String × OrderBook) → String → Option OrderBook
  | [], _ => none
  | (k, b) :: rest, bondId => if k = bondId then some b else booksGet rest bondId

/-- `Map.set` on the `orderBooks` map: replaces an existing key in place,
appends a new key at the end (JS `Map` preserves insertion order). -/
def booksSet : List (String × OrderBook) → String → OrderBook → List (String × OrderBook)
  | [], bondId, b => [(bondId, b)]
  | (k, b0) :: rest, bondId, b =>
      if k = bondId then (bondId, b) :: rest else (k, b0) :: booksSet rest bondId b

/-- `getOrCreateOrderBook`: returns the bond's book, inserting an empty one
into the map first when absent. -/
def getOrCreateOrderBook (books : List (String × OrderBook)) (bondId : String) :
    OrderBook × List (String × OrderBook) :=
  match booksGet books bondId with
  | some b => (b, books)
  | none => (⟨[], []⟩, books ++ [(bondId, ⟨[], []⟩)])

/-- `orderRepository.findOne({ where: { id } })`. -/
def findOrder (db : List Order) (orderId : String) : Option Order :=
  db.find? (fun o => o.id = orderId)

/-- `repository.save` / `manager.save` of an order: upsert by primary key. -/
def saveOrder (db : List Order) (o : Order) : List Order :=
  if (db.find? (fun x => x.id = o.id)).isSome then
    db.map (fun x => if x.id = o.id then o else x)
  else
    db ++ [o]

/-- `getUserIdByOrderId`: repository lookup of the order's owner,
defaulting to the empty string (`order?.userId || ''`). -/
def getUserIdByOrderId (db : List Order) (orderId : String) : String :=
  match findOrder db orderId with
  | some o => o.userId
  | none => ""

/-- Within a transaction, `manager.findOne` sees the transaction's own earlier
saves; the latest save of an id wins, falling back to the base store. -/
def findOneTxn (txnOrders : List Order) (db : List Order) (orderId : String) : Option Order :=
  match txnOrders.reverse.find? (fun o => o.id = orderId) with
  | some o => some o
  | none => findOrder db orderId

/-- The sort order used on the opposite book side: ascending price for a
BUY (`a.price - b.price`), descending price for a SELL (`b.price - a.price`).
`Array.prototype.sort` is stable, and any two stable sorts of the same list
under the same total comparator agree, so every in-place JS sort is modelled
by `List.insertionSort` (which is stable and structurally recursive). -/
def marketRel (side : OrderSide) (a b : OrderBookEntry) : Prop :=
  match side with
  | OrderSide.BUY => a.price ≤ b.price
  | OrderSide.SELL => b.price ≤ a.price

instance (side : OrderSide) (a b : OrderBookEntry) : Decidable (marketRel side a b) := by
  unfold marketRel
  cases side <;> exact inferInstance

/-- Comparator of `addToOrderBook` for bids: `b.price - a.price` (highest first). -/
def bidRel (a b : OrderBookEntry) : Prop := b.price ≤ a.price

instance : DecidableRel bidRel := fun a b =>
  inferInstanceAs (Decidable (b.price ≤ a.price))

/-- Comparator of `addToOrderBook` for asks: `a.price - b.price` (lowest first). -/
def askRel (a b : OrderBookEntry) : Prop := a.price ≤ b.price

instance : DecidableRel askRel := fun a b =>
  inferInstanceAs (Decidable (a.price ≤ b.price))

/-- `addToOrderBook(order, remainingQuantity?)`: build an entry (the JS
`remainingQuantity || quantity - filledQuantity` default also falls through
when an explicit `0` is passed, since `0` is falsy), push it onto the order's
side and re-sort that side (stable, price only). -/
def addedEntry (order : Order) (remainingQuantity : Option ℤ) : OrderBookEntry :=
  ⟨order.id, order.price, order.quantity,
   (match remainingQuantity with
    | some q => if q = 0 then order.quantity - order.filledQuantity else q
    | none => order.quantity - order.filledQuantity),
   order.createdAt⟩

/-- The body of `addToOrderBook`: push the entry onto the order's side of its
bond's book and re-sort that side (stable, price only). -/
def addToOrderBook (books : List (String × OrderBook)) (order : Order)
    (remainingQuantity : Option ℤ) : List (String × OrderBook) :=
  let p := getOrCreateOrderBook books order.bondId
  let e := addedEntry order remainingQuantity
  let book' :=
    if order.side = OrderSide.BUY then
      { p.1 with bids := List.insertionSort bidRel (p.1.bids ++ [e]) }
    else
      { p.1 with asks := List.insertionSort askRel (p.1.asks ++ [e]) }
  booksSet p.2 order.bondId book'

/-- The recovery query `find({ where: { status: PENDING }, order: { createdAt: ASC } })`:
only PENDING rows, ordered by ascending creation time (modelled as a stable
sort of the table). -/
def pendingByCreatedAt (db : List Order) : List Order :=
  List.insertionSort (fun a b => a.createdAt ≤ b.createdAt)
    (db.filter (fun o => o.status = OrderStatus.PENDING))

/-- `initializeOrderBooks`: admit every loaded order into its book. The
existing `orderBooks` map is not cleared first. -/
def initializeOrderBooks (db : List Order) (books : List (String × OrderBook)) :
    List (String × OrderBook) :=
  (pendingByCreatedAt db).foldl (fun bks o => addToOrderBook bks o none) books

/-- Result of the matching loop: the mutated opposite side, the unmatched
remainder, the mutated incoming order object, the trades pushed so far, and
the opposite-order saves accumulated in the transaction. -/
structure LoopResult where
  book : List OrderBookEntry
  remaining : ℤ
  order : Order
  trades : List Trade
  txnOrders : List Order
deriving DecidableEq

/-- The trade record built for one match (`manager.create(Trade, {...})`). -/
def mkTrade (db : List Order) (incoming : Order) (e : OrderBookEntry)
    (matchQuantity : ℤ) : Trade :=
  { bondId := incoming.bondId
    buyOrderId := if incoming.side = OrderSide.BUY then incoming.id else e.id
    sellOrderId := if incoming.side = OrderSide.SELL then incoming.id else e.id
    buyUserId := if incoming.side = OrderSide.BUY then incoming.userId
                 else getUserIdByOrderId db e.id
    sellUserId := if incoming.side = OrderSide.SELL then incoming.userId
                  else getUserIdByOrderId db e.id
    quantity := matchQuantity
    price := e.price
    totalValue := matchQuantity * e.price }

/-- The opposite-order update of one match: bump its filled quantity, mark it
FILLED when the book entry is exhausted, and save it — skipped entirely when
the entry's order id is not found. -/
def txnAfterMatch (txnOrders : List Order) (db : List Order) (e : OrderBookEntry)
    (matchQuantity newRemaining : ℤ) : List Order :=
  match findOneTxn txnOrders db e.id with
  | some opp =>
      txnOrders ++
        [{ opp with
            filledQuantity := opp.filledQuantity + matchQuantity
            status := if newRemaining ≤ 0 then OrderStatus.FILLED else opp.status }]
  | none => txnOrders

/-- `order.filledQuantity = parseFloat(order.filledQuantity.toString()) + matchQuantity`. -/
def matchedOrder (order : Order) (matchQuantity : ℤ) : Order :=
  { order with filledQuantity := order.filledQuantity + matchQuantity }

/-- `bookEntry.remainingQuantity -= matchQuantity`. -/
def consumedEntry (e : OrderBookEntry) (matchQuantity : ℤ) : OrderBookEntry :=
  { e with remainingQuantity := e.remainingQuantity - matchQuantity }

/-- The match loop of `processMarketOrder`: a `for...of` over the live
opposite side that splices fully-consumed entries out of the array it is
iterating. The ECMAScript array iterator is index-based, so after a splice at
the current index the loop resumes at index `i+1` of the *shrunk* array —
the entry that directly followed a fully-consumed one is skipped. The live
array is modelled as `processed ++ toProcess` with the iterator between the
two parts: on a splice, the successor entry moves straight to `processed`.
The match quantity of each step is `min remaining e.remainingQuantity`. -/
def marketLoop (db : List Order) (incoming : Order) :
    List OrderBookEntry → List OrderBookEntry → ℤ → Order → List Trade →
    List Order → LoopResult
  | processed, [], remaining, order, trades, txnOrders =>
      ⟨processed, remaining, order, trades, txnOrders⟩
  | processed, e :: rest, remaining, order, trades, txnOrders =>
      if remaining ≤ 0 then ⟨processed ++ e :: rest, remaining, order, trades, txnOrders⟩
      else if e.remainingQuantity - min remaining e.remainingQuantity ≤ 0 then
        match rest with
        | [] =>
            ⟨processed, remaining - min remaining e.remainingQuantity,
             matchedOrder order (min remaining e.remainingQuantity),
             trades ++ [mkTrade db incoming e (min remaining e.remainingQuantity)],
             txnAfterMatch txnOrders db e (min remaining e.remainingQuantity)
               (e.remainingQuantity - min remaining e.remainingQuantity)⟩
        | f :: rest' =>
            marketLoop db incoming (processed ++ [f]) rest'
              (remaining - min remaining e.remainingQuantity)
              (matchedOrder order (min remaining e.remainingQuantity))
              (trades ++ [mkTrade db incoming e (min remaining e.remainingQuantity)])
              (txnAfterMatch txnOrders db e (min remaining e.remainingQuantity)
                (e.remainingQuantity - min remaining e.remainingQuantity))
      else
        marketLoop db incoming
          (processed ++ [consumedEntry e (min remaining e.remainingQuantity)]) rest
          (remaining - min remaining e.remainingQuantity)
          (matchedOrder order (min remaining e.remainingQuantity))
          (trades ++ [mkTrade db incoming e (min remaining e.remainingQuantity)])
          (txnAfterMatch txnOrders db e (min remaining e.remainingQuantity)
            (e.remainingQuantity - min remaining e.remainingQuantity))

/-- The match loop of `processLimitOrder`: a `for...of` over the *snapshot*
`matchableOrders` (a filtered copy), mutating the shared entry objects of the
live opposite side. The shared-object mutation and the `indexOf`-based splice
are modelled as in-place update / removal of the first entry with the matched
id. -/
def setFirstById : List OrderBookEntry → String → OrderBookEntry → List OrderBookEntry
  | [], _, _ => []
  | x :: rest, eid, e' => if x.id = eid then e' :: rest else x :: setFirstById rest eid e'

/-- Removal of an entry from the live side (`indexOf` + `splice(index, 1)`);
a no-op when the id is absent. -/
def eraseFirstById : List OrderBookEntry → String → List OrderBookEntry
  | [], _ => []
  | x :: rest, eid => if x.id = eid then rest else x :: eraseFirstById rest eid

/-- The match loop of `processLimitOrder` (see `setFirstById`). -/
def limitLoop (db : List Order) (incoming : Order) :
    List OrderBookEntry → List OrderBookEntry → ℤ → Order → List Trade →
    List Order → LoopResult
  | [], book, remaining, order, trades, txnOrders =>
      ⟨book, remaining, order, trades, txnOrders⟩
  | e :: rest, book, remaining, order, trades, txnOrders =>
      if remaining ≤ 0 then ⟨book, remaining, order, trades, txnOrders⟩
      else
        limitLoop db incoming rest
          (if e.remainingQuantity - min remaining e.remainingQuantity ≤ 0 then
             eraseFirstById book e.id
           else setFirstById book e.id
             (consumedEntry e (min remaining e.remainingQuantity)))
          (remaining - min remaining e.remainingQuantity)
          (matchedOrder order (min remaining e.remainingQuantity))
          (trades ++ [mkTrade db incoming e (min remaining e.remainingQuantity)])
          (txnAfterMatch txnOrders db e (min remaining e.remainingQuantity)
            (e.remainingQuantity - min remaining e.remainingQuantity))

/-- `trades.reduce((sum, t) => sum + t.quantity, 0)`. -/
def tradesQuantity (ts : List Trade) : ℤ := (ts.map Trade.quantity).sum

/-- `trades.reduce((sum, t) => sum + t.totalValue, 0)`. -/
def tradesTotalValue (ts : List Trade) : ℤ := (ts.map Trade.totalValue).sum

/-- The average-price assignment shared by both algorithms: set only when at
least one trade was produced. -/
def withAveragePrice (order : Order) (ts : List Trade) : Order :=
  if ts = [] then order
  else { order with
          averagePrice := some ((tradesTotalValue ts : ℚ) / (tradesQuantity ts : ℚ)) }

/-- `processMarketOrder` on the success path (the transaction commits): sort
the live opposite side in place (stable, by price, direction per side), run
the match loop, derive the final status (FILLED / PARTIALLY_FILLED / REJECTED
for no liquidity), set the average price, and commit the transaction's trade
inserts and order saves. Market orders never rest in the book. -/
def processMarketOrder (s : EngineState) (order : Order) :
    EngineState × List Trade × Order :=
  let p := getOrCreateOrderBook s.books order.bondId
  let opposite0 := if order.side = OrderSide.BUY then p.1.asks else p.1.bids
  let opposite := List.insertionSort (marketRel order.side) opposite0
  let r := marketLoop s.ordersDb order [] opposite order.quantity order [] []
  let order2 :=
    { r.order with
        status :=
          if r.remaining ≤ 0 then OrderStatus.FILLED
          else if r.order.filledQuantity > 0 then OrderStatus.PARTIALLY_FILLED
          else OrderStatus.REJECTED }
  let order3 := withAveragePrice order2 r.trades
  let book' := if order.side = OrderSide.BUY then { p.1 with asks := r.book }
               else { p.1 with bids := r.book }
  ({ books := booksSet p.2 order.bondId book'
     ordersDb := (r.txnOrders ++ [order3]).foldl saveOrder s.ordersDb
     tradesDb := s.tradesDb ++ r.trades },
   r.trades, order3)

/-- The crossing filter of `processLimitOrder`: for a BUY, entries priced at
or below the limit; for a SELL, at or above. -/
def crosses (side : OrderSide) (limitPrice : ℤ) (e : OrderBookEntry) : Bool :=
  match side with
  | OrderSide.BUY => e.price ≤ limitPrice
  | OrderSide.SELL => e.price ≥ limitPrice

/-- `processLimitOrder` on the success path: filter the opposite side to the
crossing entries, sort that copy (stable, by price), run the match loop over
the snapshot, then either mark FILLED or (marking PARTIALLY_FILLED when
anything filled) admit the remainder to the order's own side — the
time-in-force is never consulted — set the average price and commit. -/
def processLimitOrder (s : EngineState) (order : Order) :
    EngineState × List Trade × Order :=
  let p := getOrCreateOrderBook s.books order.bondId
  let opposite := if order.side = OrderSide.BUY then p.1.asks else p.1.bids
  let matchable := List.insertionSort (marketRel order.side)
    (opposite.filter (crosses order.side order.price))
  let r := limitLoop s.ordersDb order matchable opposite order.quantity order [] []
  let bookAfter := if order.side = OrderSide.BUY then { p.1 with asks := r.book }
                   else { p.1 with bids := r.book }
  let books2 := booksSet p.2 order.bondId bookAfter
  let filledCase := r.remaining ≤ 0
  let order2 :=
    if filledCase then { r.order with status := OrderStatus.FILLED }
    else if r.order.filledQuantity > 0 then
      { r.order with status := OrderStatus.PARTIALLY_FILLED }
    else r.order
  let books3 := if filledCase then books2 else addToOrderBook books2 order2 (some r.remaining)
  let order3 := withAveragePrice order2 r.trades
  ({ books := books3
     ordersDb := (r.txnOrders ++ [order3]).foldl saveOrder s.ordersDb
     tradesDb := s.tradesDb ++ r.trades },
   r.trades, order3)

/-- `processOrder`: dispatch on the order type; any type other than MARKET or
LIMIT falls through to `return { trades: [], updatedOrder: order }`. -/
def processOrder (s : EngineState) (order : Order) :
    EngineState × List Trade × Order :=
  match order.orderType with
  | OrderType.MARKET => processMarketOrder s order
  | OrderType.LIMIT => processLimitOrder s order
  | _ => (s, [], order)

/-- `cancelOrder(orderId)`: look the order up (silently returning when
absent), remove its entry from its side of its instrument's book if present,
mark it CANCELLED and persist. The order's status is not checked here. -/
def cancelOrder (s : EngineState) (orderId : String) : EngineState :=
  match findOrder s.ordersDb orderId with
  | none => s
  | some order =>
      let p := getOrCreateOrderBook s.books order.bondId
      let sideList := if order.side = OrderSide.BUY then p.1.bids else p.1.asks
      let sideList' := eraseFirstById sideList orderId
      let book' := if order.side = OrderSide.BUY then { p.1 with bids := sideList' }
                   else { p.1 with asks := sideList' }
      let order' := { order with status := OrderStatus.CANCELLED }
      { books := booksSet p.2 order.bondId book'
        ordersDb := saveOrder s.ordersDb order'
        tradesDb := s.tradesDb }

/-- `marketLoop` under fault injection: the `failAt`-th database write
(0-based, counting `manager.save` calls in program order) raises. Writes
before it succeed. On failure the loop aborts with the in-memory state it has
already produced: the live opposite side as mutated so far and the incoming
order object. The final `ℕ` of a successful run counts the writes done. -/
def marketLoopF (db : List Order) (incoming : Order) (failAt : ℕ) :
    List OrderBookEntry → List OrderBookEntry → ℤ → Order → List Trade →
    List Order → ℕ → Except (List OrderBookEntry × Order) (LoopResult × ℕ)
  | processed, [], remaining, order, trades, txnOrders, writes =>
      Except.ok (⟨processed, remaining, order, trades, txnOrders⟩, writes)
  | processed, e :: rest, remaining, order, trades, txnOrders, writes =>
      if remaining ≤ 0 then
        Except.ok (⟨processed ++ e :: rest, remaining, order, trades, txnOrders⟩, writes)
      else
        let matchQuantity := min remaining e.remainingQuantity
        let trade := mkTrade db incoming e matchQuantity
        if writes = failAt then Except.error (processed ++ e :: rest, order)
        else
          let writes1 := writes + 1
          let remaining' := remaining - matchQuantity
          let newRemaining := e.remainingQuantity - matchQuantity
          let e' := { e with remainingQuantity := newRemaining }
          let order' := { order with filledQuantity := order.filledQuantity + matchQuantity }
          let step := fun (txnNext : List Order) (writesNext : ℕ) =>
            if newRemaining ≤ 0 then
              match rest with
              | [] =>
                  Except.ok
                    ((⟨processed, remaining', order', trades ++ [trade], txnNext⟩ : LoopResult),
                     writesNext)
              | f :: rest' =>
                  marketLoopF db incoming failAt (processed ++ [f]) rest' remaining' order'
                    (trades ++ [trade]) txnNext writesNext
            else
              marketLoopF db incoming failAt (processed ++ [e']) rest remaining' order'
                (trades ++ [trade]) txnNext writesNext
          match findOneTxn txnOrders db e.id with
          | some opp =>
              if writes1 = failAt then Except.error (processed ++ e' :: rest, order')
              else
                step
                  (txnOrders ++
                    [{ opp with
                        filledQuantity := opp.filledQuantity + matchQuantity
                        status := if newRemaining ≤ 0 then OrderStatus.FILLED
                                  else opp.status }])
                  (writes1 + 1)
          | none => step txnOrders writes1

/-- `processMarketOrder` under fault injection at the `failAt`-th database
write of its transaction. The transaction rolls the Order and Trade stores
back, but the in-place mutations of the book survive: the error result is the
engine state as the caller of the rejected promise observes it. -/
def processMarketOrderF (failAt : ℕ) (s : EngineState) (order : Order) :
    Except EngineState (EngineState × List Trade × Order) :=
  let p := getOrCreateOrderBook s.books order.bondId
  let opposite0 := if order.side = OrderSide.BUY then p.1.asks else p.1.bids
  let opposite := List.insertionSort (marketRel order.side) opposite0
  let reassemble := fun (bk : List OrderBookEntry) =>
    if order.side = OrderSide.BUY then { p.1 with asks := bk } else { p.1 with bids := bk }
  match marketLoopF s.ordersDb order failAt [] opposite order.quantity order [] [] 0 with
  | Except.error (bookLeak, _) =>
      Except.error
        { books := booksSet p.2 order.bondId (reassemble bookLeak)
          ordersDb := s.ordersDb
          tradesDb := s.tradesDb }
  | Except.ok (r, writes) =>
      let order2 :=
        { r.order with
            status :=
              if r.remaining ≤ 0 then OrderStatus.FILLED
              else if r.order.filledQuantity > 0 then OrderStatus.PARTIALLY_FILLED
              else OrderStatus.REJECTED }
      let order3 := withAveragePrice order2 r.trades
      if writes = failAt then
        Except.error
          { books := booksSet p.2 order.bondId (reassemble r.book)
            ordersDb := s.ordersDb
            tradesDb := s.tradesDb }
      else
        Except.ok
          ({ books := booksSet p.2 order.bondId (reassemble r.book)
             ordersDb := (r.txnOrders ++ [order3]).foldl saveOrder s.ordersDb
             tradesDb := s.tradesDb ++ r.trades },
           r.trades, order3)

/-! Derived notions the specification's properties speak about. -/

/-- The bond's book as the engine reads it: `getOrderBook`'s
`this.orderBooks.get(bondId) || { bids: [], asks: [] }`. -/
def bookFor (books : List (String × OrderBook)) (bondId : String) : OrderBook :=
  (booksGet books bondId).getD ⟨[], []⟩

/-- Priority order of the bid side: descending price, ties broken by
ascending admission timestamp. -/
def bidPriority (a b : OrderBookEntry) : Prop :=
  b.price < a.price ∨ (a.price = b.price ∧ a.timestamp ≤ b.timestamp)

instance (a b : OrderBookEntry) : Decidable (bidPriority a b) :=
  inferInstanceAs (Decidable (_ ∨ _))

/-- Priority order of the ask side: ascending price, ties broken by
ascending admission timestamp. -/
def askPriority (a b : OrderBookEntry) : Prop :=
  a.price < b.price ∨ (a.price = b.price ∧ a.timestamp ≤ b.timestamp)

instance (a b : OrderBookEntry) : Decidable (askPriority a b) :=
  inferInstanceAs (Decidable (_ ∨ _))

/-- The spec's order-book invariant: both sides priority-sorted and no order
id occurring twice anywhere in the book. -/
def BookWF (bk : OrderBook) : Prop :=
  bk.bids.Pairwise bidPriority ∧ bk.asks.Pairwise askPriority ∧
  ((bk.bids ++ bk.asks).map OrderBookEntry.id).Nodup

instance (bk : OrderBook) : Decidable (BookWF bk) :=
  inferInstanceAs (Decidable (_ ∧ _ ∧ _))

/-- The entry fields matching never mutates: price, timestamp and id. -/
def obKey (e : OrderBookEntry) : ℤ × ℕ × String := (e.price, e.timestamp, e.id)

/-- `bidPriority` seen through `obKey`. -/
def keyBidPriority (k1 k2 : ℤ × ℕ × String) : Prop :=
  k2.1 < k1.1 ∨ (k1.1 = k2.1 ∧ k1.2.1 ≤ k2.2.1)

/-- `askPriority` seen through `obKey`. -/
def keyAskPriority (k1 k2 : ℤ × ℕ × String) : Prop :=
  k1.1 < k2.1 ∨ (k1.1 = k2.1 ∧ k1.2.1 ≤ k2.2.1)

/-- The side an incoming order matches against, read off the pre-state. -/
def oppositeEntries (s : EngineState) (order : Order) : List OrderBookEntry :=
  if order.side = OrderSide.BUY then (bookFor s.books order.bondId).asks
  else (bookFor s.books order.bondId).bids

/-- The entry recovery admits for a loaded order (no explicit remainder, so
`remainingQuantity` defaults to quantity minus filled quantity). -/
def recoveryEntry (o : Order) : OrderBookEntry :=
  ⟨o.id, o.price, o.quantity, o.quantity - o.filledQuantity, o.createdAt⟩

/-- The incoming order's id does not already rest in the book. -/
def freshFor (order : Order) (bk : OrderBook) : Prop :=
  order.id ∉ (bk.bids ++ bk.asks).map OrderBookEntry.id

instance (order : Order) (bk : OrderBook) : Decidable (freshFor order bk) :=
  inferInstanceAs (Decidable (¬ _))

/-- Admissions happen in timestamp order: every resting entry is at least as
old as the incoming order (the submission path assigns `createdAt` at
insertion time, monotonically). -/
def tsMono (order : Order) (bk : OrderBook) : Prop :=
  ∀ e ∈ bk.bids ++ bk.asks, e.timestamp ≤ order.createdAt

instance (order : Order) (bk : OrderBook) : Decidable (tsMono order bk) :=
  inferInstanceAs (Decidable (∀ e ∈ _, _))

/-! Concrete inputs used by the evaluation theorems below. -/

/-- The empty engine state. -/
def emptyState : EngineState := ⟨[], [], []⟩

/-- Resting ask order of the FOK scenario: SELL 60 at price 9 (Scenario D's
"asks totaling only 60 qty at price ≤ 10"). -/
def fokAskOrder : Order :=
  ⟨"A1", "uA", "B", OrderType.LIMIT, OrderSide.SELL, 60, 0, 9,
   OrderStatus.PENDING, TimeInForce.GTC, none, 1⟩

/-- State holding that single resting ask. -/
def fokState : EngineState :=
  ⟨[("B", ⟨[], [⟨"A1", 9, 60, 60, 1⟩]⟩)], [fokAskOrder], []⟩

/-- Scenario D incoming order: LIMIT BUY price 10, qty 100, FOK. -/
def fokOrder : Order :=
  ⟨"F1", "uF", "B", OrderType.LIMIT, OrderSide.BUY, 100, 0, 10,
   OrderStatus.PENDING, TimeInForce.FOK, none, 2⟩

/-- An IOC limit BUY submitted against an empty book. -/
def iocOrder : Order :=
  ⟨"I1", "uI", "B", OrderType.LIMIT, OrderSide.BUY, 5, 0, 10,
   OrderStatus.PENDING, TimeInForce.IOC, none, 1⟩

/-- A FOK limit BUY submitted against an empty book. -/
def fokRestOrder : Order :=
  ⟨"K1", "uK", "B", OrderType.LIMIT, OrderSide.BUY, 7, 0, 11,
   OrderStatus.PENDING, TimeInForce.FOK, none, 1⟩

/-- Resting ask order of the persistence-failure scenario: SELL 20 at 10. -/
def c2AskOrder : Order :=
  ⟨"A1", "uA", "B", OrderType.LIMIT, OrderSide.SELL, 20, 0, 10,
   OrderStatus.PENDING, TimeInForce.GTC, none, 1⟩

/-- State before the failing market order: one ask, remaining 20. -/
def c2State : EngineState :=
  ⟨[("B", ⟨[], [⟨"A1", 10, 20, 20, 1⟩]⟩)], [c2AskOrder], []⟩

/-- The incoming market BUY of quantity 10 whose persistence fails. -/
def c2Market : Order :=
  ⟨"M2", "uM", "B", OrderType.MARKET, OrderSide.BUY, 10, 0, 0,
   OrderStatus.PENDING, TimeInForce.GTC, none, 2⟩

/-- The state the failed attempt leaves behind: both stores rolled back, but
the resting ask's remaining quantity already decremented from 20 to 10. -/
def c2Leak : EngineState :=
  ⟨[("B", ⟨[], [⟨"A1", 10, 20, 10, 1⟩]⟩)], [c2AskOrder], []⟩

/-- A persisted PARTIALLY_FILLED sell order (remaining 60) that rested in the
book before shutdown. -/
def pfOrder : Order :=
  ⟨"P1", "uP", "B", OrderType.LIMIT, OrderSide.SELL, 100, 40, 10,
   OrderStatus.PARTIALLY_FILLED, TimeInForce.GTC, none, 1⟩

/-- A persisted PENDING buy order. -/
def pendOrder : Order :=
  ⟨"P2", "uQ", "B", OrderType.LIMIT, OrderSide.BUY, 30, 0, 8,
   OrderStatus.PENDING, TimeInForce.GTC, none, 2⟩

/-- Scenario C's resting LIMIT BUY: price 50, qty 20. -/
def c9Buy : Order :=
  ⟨"R1", "uR", "B", OrderType.LIMIT, OrderSide.BUY, 20, 0, 50,
   OrderStatus.PENDING, TimeInForce.GTC, none, 1⟩

/-- State in which that buy rests as the only bid. -/
def c9State : EngineState :=
  ⟨[("B", ⟨[⟨"R1", 50, 20, 20, 1⟩], []⟩)], [c9Buy], []⟩

/-- The subsequent crossing LIMIT SELL at price 50. -/
def c9Sell : Order :=
  ⟨"S1", "uS", "B", OrderType.LIMIT, OrderSide.SELL, 20, 0, 50,
   OrderStatus.PENDING, TimeInForce.GTC, none, 2⟩

/-- An order of a type the engine does not process. -/
def stopOrder : Order :=
  ⟨"X1", "uX", "B", OrderType.STOP_LOSS, OrderSide.BUY, 10, 0, 5,
   OrderStatus.PENDING, TimeInForce.GTC, none, 1⟩

/-! Helper lemmas. -/

theorem tradesQuantity_append (ts : List Trade) (t : Trade) :
    tradesQuantity (ts ++ [t]) = tradesQuantity ts + t.quantity := by
  simp [tradesQuantity]

theorem tradesQuantity_nil : tradesQuantity [] = 0 := rfl

theorem withAveragePrice_status (o : Order) (ts : List Trade) :
    (withAveragePrice o ts).status = o.status := by
  unfold withAveragePrice
  split <;> rfl

theorem marketLoop_conserve (db : List Order) (inc : Order)
    (processed toProcess : List OrderBookEntry) (rem : ℤ) (ord : Order)
    (tr : List Trade) (txn : List Order) :
    0 ≤ rem →
      0 ≤ (marketLoop db inc processed toProcess rem ord tr txn).remaining ∧
      (marketLoop db inc processed toProcess rem ord tr txn).remaining +
          tradesQuantity (marketLoop db inc processed toProcess rem ord tr txn).trades =
        rem + tradesQuantity tr := by
  induction processed, toProcess, rem, ord, tr, txn using marketLoop.induct db inc with
  | case1 processed rem ord tr txn =>
      intro h
      exact ⟨h, rfl⟩
  | case2 processed e rest rem ord tr txn hle =>
      intro h
      refine ⟨?_, ?_⟩ <;> rw [marketLoop.eq_def] <;> simp only [if_pos hle]
      · exact h
  | case3 processed e rem ord tr txn hgt hdone =>
      intro h
      rw [marketLoop.eq_def]
      simp only [if_neg hgt, if_pos hdone, tradesQuantity_append, mkTrade]
      constructor
      · omega
      · omega
  | case4 processed e rem ord tr txn hgt hdone f rest' ih =>
      intro h
      have hrem : (0:ℤ) ≤ rem - min rem e.remainingQuantity := by omega
      obtain ⟨ih1, ih2⟩ := ih hrem
      rw [marketLoop.eq_def]
      simp only [if_neg hgt, if_pos hdone]
      refine ⟨ih1, ?_⟩
      rw [ih2, tradesQuantity_append]
      simp only [mkTrade]
      omega
  | case5 processed e rest rem ord tr txn hgt hlive ih =>
      intro h
      have hrem : (0:ℤ) ≤ rem - min rem e.remainingQuantity := by omega
      obtain ⟨ih1, ih2⟩ := ih hrem
      rw [marketLoop.eq_def]
      simp only [if_neg hgt, if_neg hlive]
      refine ⟨ih1, ?_⟩
      rw [ih2, tradesQuantity_append]
      simp only [mkTrade]
      omega

theorem limitLoop_conserve (db : List Order) (inc : Order)
    (matchable book : List OrderBookEntry) (rem : ℤ) (ord : Order)
    (tr : List Trade) (txn : List Order) :
    0 ≤ rem →
      0 ≤ (limitLoop db inc matchable book rem ord tr txn).remaining ∧
      (limitLoop db inc matchable book rem ord tr txn).remaining +
          tradesQuantity (limitLoop db inc matchable book rem ord tr txn).trades =
        rem + tradesQuantity tr := by
  induction matchable, book, rem, ord, tr, txn using limitLoop.induct db inc with
  | case1 book rem ord tr txn =>
      intro h
      exact ⟨h, rfl⟩
  | case2 e rest book rem ord tr txn hle =>
      intro h
      refine ⟨?_, ?_⟩ <;> rw [limitLoop.eq_def] <;> simp only [if_pos hle]
      · exact h
  | case3 e rest book rem ord tr txn hgt ih =>
      intro h
      have hrem : (0:ℤ) ≤ rem - min rem e.remainingQuantity := by omega
      obtain ⟨ih1, ih2⟩ := ih hrem
      rw [limitLoop.eq_def]
      simp only [if_neg hgt]
      refine ⟨ih1, ?_⟩
      rw [ih2, tradesQuantity_append]
      simp only [mkTrade]
      omega

theorem limitLoop_order_status (db : List Order) (inc : Order)
    (matchable book : List OrderBookEntry) (rem : ℤ) (ord : Order)
    (tr : List Trade) (txn : List Order) :
    (limitLoop db inc matchable book rem ord tr txn).order.status = ord.status := by
  induction matchable, book, rem, ord, tr, txn using limitLoop.induct db inc with
  | case1 book rem ord tr txn => rfl
  | case2 e rest book rem ord tr txn hle =>
      rw [limitLoop.eq_def]
      simp only [if_pos hle]
  | case3 e rest book rem ord tr txn hgt ih =>
      rw [limitLoop.eq_def]
      simp only [if_neg hgt]
      exact ih

theorem ifPFRej_ne_filled (c : Prop) [Decidable c] :
    (if c then OrderStatus.PARTIALLY_FILLED else OrderStatus.REJECTED) ≠
      OrderStatus.FILLED := by
  split <;> decide

theorem ifPF_status_ne_filled (c : Prop) [Decidable c] (o : Order)
    (h : o.status ≠ OrderStatus.FILLED) :
    (if c then { o with status := OrderStatus.PARTIALLY_FILLED } else o).status ≠
      OrderStatus.FILLED := by
  split
  · exact fun hx => OrderStatus.noConfusion hx
  · exact h

theorem processMarketOrder_conserve (s : EngineState) (order : Order)
    (hq : 0 < order.quantity) :
    tradesQuantity (processMarketOrder s order).2.1 ≤ order.quantity ∧
    (tradesQuantity (processMarketOrder s order).2.1 = order.quantity ↔
      (processMarketOrder s order).2.2.status = OrderStatus.FILLED) := by
  obtain ⟨h1, h2⟩ :=
    marketLoop_conserve s.ordersDb order []
      (List.insertionSort (marketRel order.side)
        (if order.side = OrderSide.BUY then (getOrCreateOrderBook s.books order.bondId).1.asks
         else (getOrCreateOrderBook s.books order.bondId).1.bids))
      order.quantity order [] [] (le_of_lt hq)
  simp only [tradesQuantity_nil, add_zero] at h2
  simp only [processMarketOrder]
  rw [withAveragePrice_status]
  constructor
  · omega
  · by_cases hc :
      (marketLoop s.ordersDb order []
        (List.insertionSort (marketRel order.side)
          (if order.side = OrderSide.BUY then (getOrCreateOrderBook s.books order.bondId).1.asks
           else (getOrCreateOrderBook s.books order.bondId).1.bids))
        order.quantity order [] []).remaining ≤ 0
    · simp only [if_pos hc, iff_true]
      omega
    · simp only [if_neg hc]
      constructor
      · intro hEq
        exact absurd hEq (by omega)
      · intro hst
        exact absurd hst (ifPFRej_ne_filled _)

theorem processLimitOrder_conserve (s : EngineState) (order : Order)
    (hq : 0 < order.quantity) (hs : order.status = OrderStatus.PENDING) :
    tradesQuantity (processLimitOrder s order).2.1 ≤ order.quantity ∧
    (tradesQuantity (processLimitOrder s order).2.1 = order.quantity ↔
      (processLimitOrder s order).2.2.status = OrderStatus.FILLED) := by
  obtain ⟨h1, h2⟩ :=
    limitLoop_conserve s.ordersDb order
      (List.insertionSort (marketRel order.side)
        (List.filter (crosses order.side order.price)
          (if order.side = OrderSide.BUY then (getOrCreateOrderBook s.books order.bondId).1.asks
           else (getOrCreateOrderBook s.books order.bondId).1.bids)))
      (if order.side = OrderSide.BUY then (getOrCreateOrderBook s.books order.bondId).1.asks
       else (getOrCreateOrderBook s.books order.bondId).1.bids)
      order.quantity order [] [] (le_of_lt hq)
  have hstat :=
    limitLoop_order_status s.ordersDb order
      (List.insertionSort (marketRel order.side)
        (List.filter (crosses order.side order.price)
          (if order.side = OrderSide.BUY then (getOrCreateOrderBook s.books order.bondId).1.asks
           else (getOrCreateOrderBook s.books order.bondId).1.bids)))
      (if order.side = OrderSide.BUY then (getOrCreateOrderBook s.books order.bondId).1.asks
       else (getOrCreateOrderBook s.books order.bondId).1.bids)
      order.quantity order [] []
  simp only [tradesQuantity_nil, add_zero] at h2
  simp only [processLimitOrder]
  rw [withAveragePrice_status]
  constructor
  · omega
  · by_cases hc :
      (limitLoop s.ordersDb order
        (List.insertionSort (marketRel order.side)
          (List.filter (crosses order.side order.price)
            (if order.side = OrderSide.BUY then (getOrCreateOrderBook s.books order.bondId).1.asks
             else (getOrCreateOrderBook s.books order.bondId).1.bids)))
        (if order.side = OrderSide.BUY then (getOrCreateOrderBook s.books order.bondId).1.asks
         else (getOrCreateOrderBook s.books order.bondId).1.bids)
        order.quantity order [] []).remaining ≤ 0
    · simp only [if_pos hc, iff_true]
      omega
    · simp only [if_neg hc]
      constructor
      · intro hEq
        exact absurd hEq (by omega)
      · intro hst
        refine absurd hst (ifPF_status_ne_filled _ _ ?_)
        rw [hstat, hs]
        decide

theorem marketLoop_trades_from (db : List Order) (inc : Order)
    (processed toProcess : List OrderBookEntry) (rem : ℤ) (ord : Order)
    (tr : List Trade) (txn : List Order) :
    ∀ t ∈ (marketLoop db inc processed toProcess rem ord tr txn).trades,
      t ∈ tr ∨ ∃ e ∈ toProcess, ∃ q, t = mkTrade db inc e q := by
  induction processed, toProcess, rem, ord, tr, txn using marketLoop.induct db inc with
  | case1 processed rem ord tr txn =>
      intro t ht
      exact Or.inl ht
  | case2 processed e rest rem ord tr txn hle =>
      intro t ht
      rw [marketLoop.eq_def] at ht
      simp only [if_pos hle] at ht
      exact Or.inl ht
  | case3 processed e rem ord tr txn hgt hdone =>
      intro t ht
      rw [marketLoop.eq_def] at ht
      simp only [if_neg hgt, if_pos hdone] at ht
      rcases List.mem_append.mp ht with h | h
      · exact Or.inl h
      · refine Or.inr ⟨e, List.mem_singleton_self e, min rem e.remainingQuantity, ?_⟩
        simpa using h
  | case4 processed e rem ord tr txn hgt hdone f rest' ih =>
      intro t ht
      rw [marketLoop.eq_def] at ht
      simp only [if_neg hgt, if_pos hdone] at ht
      rcases ih t ht with h | ⟨e', he', q, hq⟩
      · rcases List.mem_append.mp h with h' | h'
        · exact Or.inl h'
        · refine Or.inr ⟨e, List.mem_cons_self e _, min rem e.remainingQuantity, ?_⟩
          simpa using h'
      · exact Or.inr ⟨e', by simp [he'], q, hq⟩
  | case5 processed e rest rem ord tr txn hgt hlive ih =>
      intro t ht
      rw [marketLoop.eq_def] at ht
      simp only [if_neg hgt, if_neg hlive] at ht
      rcases ih t ht with h | ⟨e', he', q, hq⟩
      · rcases List.mem_append.mp h with h' | h'
        · exact Or.inl h'
        · refine Or.inr ⟨e, List.mem_cons_self e _, min rem e.remainingQuantity, ?_⟩
          simpa using h'
      · exact Or.inr ⟨e', List.mem_cons_of_mem e he', q, hq⟩

theorem limitLoop_trades_from (db : List Order) (inc : Order)
    (matchable book : List OrderBookEntry) (rem : ℤ) (ord : Order)
    (tr : List Trade) (txn : List Order) :
    ∀ t ∈ (limitLoop db inc matchable book rem ord tr txn).trades,
      t ∈ tr ∨ ∃ e ∈ matchable, ∃ q, t = mkTrade db inc e q := by
  induction matchable, book, rem, ord, tr, txn using limitLoop.induct db inc with
  | case1 book rem ord tr txn =>
      intro t ht
      exact Or.inl ht
  | case2 e rest book rem ord tr txn hle =>
      intro t ht
      rw [limitLoop.eq_def] at ht
      simp only [if_pos hle] at ht
      exact Or.inl ht
  | case3 e rest book rem ord tr txn hgt ih =>
      intro t ht
      rw [limitLoop.eq_def] at ht
      simp only [if_neg hgt] at ht
      rcases ih t ht with h | ⟨e', he', q, hq⟩
      · rcases List.mem_append.mp h with h' | h'
        · exact Or.inl h'
        · refine Or.inr ⟨e, List.mem_cons_self e _, min rem e.remainingQuantity, ?_⟩
          simpa using h'
      · exact Or.inr ⟨e', List.mem_cons_of_mem e he', q, hq⟩

theorem getOrCreate_fst (books : List (String × OrderBook)) (b : String) :
    (getOrCreateOrderBook books b).1 = bookFor books b := by
  unfold getOrCreateOrderBook bookFor
  cases h : booksGet books b <;> simp

theorem marketLoop_price_irrel (db : List Order) (inc : Order) (p : ℤ)
    (processed toProcess : List OrderBookEntry) (rem : ℤ) (ord : Order)
    (tr : List Trade) (txn : List Order) :
    marketLoop db { inc with price := p } processed toProcess rem ord tr txn =
      marketLoop db inc processed toProcess rem ord tr txn := by
  induction processed, toProcess, rem, ord, tr, txn using marketLoop.induct db inc with
  | case1 processed rem ord tr txn => rfl
  | case2 processed e rest rem ord tr txn hle =>
      rw [marketLoop.eq_def, marketLoop.eq_def]
      simp only [if_pos hle]
  | case3 processed e rem ord tr txn hgt hdone =>
      rw [marketLoop.eq_def, marketLoop.eq_def]
      simp only [if_neg hgt, if_pos hdone]
      rfl
  | case4 processed e rem ord tr txn hgt hdone f rest' ih =>
      rw [marketLoop.eq_def, marketLoop.eq_def]
      simp only [if_neg hgt, if_pos hdone]
      exact ih
  | case5 processed e rest rem ord tr txn hgt hlive ih =>
      rw [marketLoop.eq_def, marketLoop.eq_def]
      simp only [if_neg hgt, if_neg hlive]
      exact ih

theorem marketLoop_trades_ord_irrel (db : List Order) (inc : Order)
    (processed toProcess : List OrderBookEntry) (rem : ℤ) (ord : Order)
    (tr : List Trade) (txn : List Order) :
    ∀ ord2 : Order,
      (marketLoop db inc processed toProcess rem ord tr txn).trades =
        (marketLoop db inc processed toProcess rem ord2 tr txn).trades := by
  induction processed, toProcess, rem, ord, tr, txn using marketLoop.induct db inc with
  | case1 processed rem ord tr txn =>
      intro ord2
      rfl
  | case2 processed e rest rem ord tr txn hle =>
      intro ord2
      rw [marketLoop.eq_def, marketLoop.eq_def]
      simp only [if_pos hle]
  | case3 processed e rem ord tr txn hgt hdone =>
      intro ord2
      rw [marketLoop.eq_def, marketLoop.eq_def]
      simp only [if_neg hgt, if_pos hdone]
  | case4 processed e rem ord tr txn hgt hdone f rest' ih =>
      intro ord2
      rw [marketLoop.eq_def, marketLoop.eq_def]
      simp only [if_neg hgt, if_pos hdone]
      exact ih (matchedOrder ord2 (min rem e.remainingQuantity))
  | case5 processed e rest rem ord tr txn hgt hlive ih =>
      intro ord2
      rw [marketLoop.eq_def, marketLoop.eq_def]
      simp only [if_neg hgt, if_neg hlive]
      exact ih (matchedOrder ord2 (min rem e.remainingQuantity))

theorem booksGet_booksSet_self (books : List (String × OrderBook)) (b : String)
    (bk : OrderBook) : booksGet (booksSet books b bk) b = some bk := by
  induction books with
  | nil => simp [booksSet, booksGet]
  | cons hd tl ih =>
      obtain ⟨k, b0⟩ := hd
      by_cases hk : k = b
      · simp [booksSet, booksGet, hk]
      · simp [booksSet, booksGet, hk, ih]

theorem booksGet_booksSet_ne (books : List (String × OrderBook)) (b b' : String)
    (bk : OrderBook) (h : b' ≠ b) :
    booksGet (booksSet books b bk) b' = booksGet books b' := by
  induction books with
  | nil => simp [booksSet, booksGet, Ne.symm h]
  | cons hd tl ih =>
      obtain ⟨k, b0⟩ := hd
      by_cases hk : k = b
      · subst hk
        simp [booksSet, booksGet, Ne.symm h]
      · simp only [booksSet, if_neg hk, booksGet]
        by_cases hk' : k = b'
        · simp [hk']
        · simp [hk', ih]

theorem booksGet_getOrCreate_self (books : List (String × OrderBook)) (b : String) :
    booksGet (getOrCreateOrderBook books b).2 b = some (bookFor books b) := by
  unfold getOrCreateOrderBook bookFor
  cases h : booksGet books b with
  | some bk => simp [h]
  | none =>
      simp only [h]
      induction books with
      | nil => simp [booksGet]
      | cons hd tl ih =>
          obtain ⟨k, b0⟩ := hd
          by_cases hk : k = b
          · rw [booksGet] at h
            simp [hk] at h
          · rw [booksGet] at h
            simp only [if_neg hk] at h
            simpa [booksGet, hk] using ih h

theorem booksGet_getOrCreate_ne (books : List (String × OrderBook)) (b b' : String)
    (h : b' ≠ b) :
    booksGet (getOrCreateOrderBook books b).2 b' = booksGet books b' := by
  unfold getOrCreateOrderBook
  cases hb : booksGet books b with
  | some bk => rfl
  | none =>
      simp only []
      induction books with
      | nil => simp [booksGet, Ne.symm h]
      | cons hd tl ih =>
          obtain ⟨k, b0⟩ := hd
          rw [booksGet] at hb
          by_cases hk : k = b
          · simp [hk] at hb
          · simp only [if_neg hk] at hb
            by_cases hk' : k = b'
            · simp [booksGet, hk']
            · simp only [List.cons_append, booksGet, if_neg hk']
              exact ih hb

theorem mem_of_mem_eraseFirstById (l : List OrderBookEntry) (i : String)
    (x : OrderBookEntry) (hx : x ∈ eraseFirstById l i) : x ∈ l := by
  induction l with
  | nil => exact absurd hx (List.not_mem_nil x)
  | cons hd tl ih =>
      rw [eraseFirstById] at hx
      by_cases hh : hd.id = i
      · rw [if_pos hh] at hx
        exact List.mem_cons_of_mem hd hx
      · rw [if_neg hh] at hx
        rcases List.mem_cons.mp hx with h | h
        · exact h ▸ List.mem_cons_self hd tl
        · exact List.mem_cons_of_mem hd (ih h)

theorem eraseFirstById_not_mem (l : List OrderBookEntry) (i : String)
    (h : (l.map OrderBookEntry.id).Nodup) :
    i ∉ (eraseFirstById l i).map OrderBookEntry.id := by
  induction l with
  | nil => simp [eraseFirstById]
  | cons hd tl ih =>
      rw [List.map_cons, List.nodup_cons] at h
      rw [eraseFirstById]
      by_cases hh : hd.id = i
      · rw [if_pos hh]
        rw [hh] at h
        exact h.1
      · rw [if_neg hh]
        rw [List.map_cons]
        intro hmem
        rcases List.mem_cons.mp hmem with heq | hmem'
        · exact hh heq.symm
        · exact ih h.2 hmem'

theorem findOrder_map_replace (db : List Order) (o : Order)
    (h : (db.find? (fun x => x.id = o.id)).isSome) :
    findOrder (db.map (fun x => if x.id = o.id then o else x)) o.id = some o := by
  induction db with
  | nil => simp at h
  | cons hd tl ih =>
      by_cases hh : hd.id = o.id
      · unfold findOrder
        rw [List.map_cons, if_pos hh]
        exact List.find?_cons_of_pos _ (by simp)
      · unfold findOrder at ih ⊢
        rw [List.map_cons, if_neg hh]
        rw [List.find?_cons_of_neg _ (by simp [hh])]
        apply ih
        rw [List.find?_cons_of_neg _ (by simp [hh])] at h
        exact h

theorem findOrder_append_right (db : List Order) (o : Order) :
    ¬ (db.find? (fun x => x.id = o.id)).isSome →
    findOrder (db ++ [o]) o.id = some o := by
  induction db with
  | nil =>
      intro h
      simp [findOrder, List.find?]
  | cons hd tl ih =>
      intro h
      unfold findOrder at ih ⊢
      by_cases hh : hd.id = o.id
      · exfalso
        apply h
        rw [List.find?_cons_of_pos _ (by simp [hh])]
        rfl
      · rw [List.cons_append, List.find?_cons_of_neg _ (by simp [hh])]
        apply ih
        intro h2
        apply h
        rw [List.find?_cons_of_neg _ (by simp [hh])]
        exact h2

theorem findOrder_saveOrder_self (db : List Order) (o : Order) :
    findOrder (saveOrder db o) o.id = some o := by
  unfold saveOrder
  split
  · next h => exact findOrder_map_replace db o h
  · next h => exact findOrder_append_right db o h

/-! Stability of the price-keyed sorts: the per-price subsequences of an
insertion sort by price are those of its input, so a stable sort preserves
FIFO order inside every price level. -/

theorem orderedInsert_filter_of_mates {α : Type} (r : α → α → Prop) [DecidableRel r]
    (p : α → Bool) (hmate : ∀ x y, p x = true → p y = true → r x y)
    (x : α) (l : List α) :
    (List.orderedInsert r x l).filter p =
      if p x then x :: l.filter p else l.filter p := by
  induction l with
  | nil =>
      by_cases hp : p x = true <;> simp [List.orderedInsert, hp]
  | cons y ys ih =>
      rw [List.orderedInsert]
      by_cases hr : r x y
      · rw [if_pos hr, List.filter_cons]
      · rw [if_neg hr, List.filter_cons, List.filter_cons]
        by_cases hpy : p y = true
        · by_cases hpx : p x = true
          · exact absurd (hmate x y hpx hpy) hr
          · simp [hpy, hpx, ih]
        · simp [hpy, ih]

theorem insertionSort_filter_of_mates {α : Type} (r : α → α → Prop) [DecidableRel r]
    (p : α → Bool) (hmate : ∀ x y, p x = true → p y = true → r x y) (l : List α) :
    (List.insertionSort r l).filter p = l.filter p := by
  induction l with
  | nil => rfl
  | cons x xs ih =>
      rw [List.insertionSort, orderedInsert_filter_of_mates r p hmate, List.filter_cons]
      by_cases hp : p x = true
      · simp [hp, ih]
      · simp [hp, ih]

theorem pairwise_priority_of_sorted (l : List OrderBookEntry)
    (le prio : OrderBookEntry → OrderBookEntry → Prop)
    (hsorted : l.Pairwise le)
    (hfilter : ∀ c : ℤ, (l.filter (fun e => e.price = c)).Pairwise
        (fun a b => a.timestamp ≤ b.timestamp))
    (hle_prio : ∀ a b, le a b → a.price ≠ b.price → prio a b)
    (heq_prio : ∀ a b, a.price = b.price → a.timestamp ≤ b.timestamp → prio a b) :
    l.Pairwise prio := by
  rw [List.pairwise_iff_forall_sublist] at hsorted ⊢
  intro a b hab
  by_cases hpq : a.price = b.price
  · apply heq_prio a b hpq
    have hsub := List.Sublist.filter (fun e => e.price = a.price) hab
    have hab2 : ([a, b].filter (fun e => e.price = a.price)) = [a, b] := by
      simp [List.filter, hpq.symm]
    rw [hab2] at hsub
    have hf := hfilter a.price
    rw [List.pairwise_iff_forall_sublist] at hf
    exact hf hsub
  · exact hle_prio a b (hsorted hab) hpq

theorem pairwise_ts_filter_of_priority (l : List OrderBookEntry)
    (prio : OrderBookEntry → OrderBookEntry → Prop)
    (hwf : l.Pairwise prio)
    (hts : ∀ a b, prio a b → a.price = b.price → a.timestamp ≤ b.timestamp)
    (c : ℤ) :
    (l.filter (fun e => e.price = c)).Pairwise (fun a b => a.timestamp ≤ b.timestamp) := by
  rw [List.pairwise_iff_forall_sublist]
  intro a b hab
  have hmema : a ∈ l.filter (fun e => e.price = c) := hab.subset (by simp)
  have hmemb : b ∈ l.filter (fun e => e.price = c) := hab.subset (by simp)
  have hpa : a.price = c := by simpa using (List.mem_filter.mp hmema).2
  have hpb : b.price = c := by simpa using (List.mem_filter.mp hmemb).2
  have hsub : List.Sublist [a, b] l := hab.trans (List.filter_sublist l)
  rw [List.pairwise_iff_forall_sublist] at hwf
  exact hts a b (hwf hsub) (hpa.trans hpb.symm)

theorem bidPriority_ts (a b : OrderBookEntry) (hp : bidPriority a b)
    (heq : a.price = b.price) : a.timestamp ≤ b.timestamp := by
  rcases hp with h | h
  · rw [heq] at h
    exact absurd h (lt_irrefl _)
  · exact h.2

theorem askPriority_ts (a b : OrderBookEntry) (hp : askPriority a b)
    (heq : a.price = b.price) : a.timestamp ≤ b.timestamp := by
  rcases hp with h | h
  · rw [heq] at h
    exact absurd h (lt_irrefl _)
  · exact h.2

/-! The bid-side and ask-side versions of: pushing a youngest entry and
re-sorting (stably, by price) preserves the priority invariant. -/

theorem bids_push_sort_pairwise (l : List OrderBookEntry) (e : OrderBookEntry)
    (hwf : l.Pairwise bidPriority) (hts : ∀ x ∈ l, x.timestamp ≤ e.timestamp) :
    (List.insertionSort bidRel (l ++ [e])).Pairwise bidPriority := by
  have htotal : IsTotal OrderBookEntry bidRel := ⟨fun a b => le_total b.price a.price⟩
  have htrans : IsTrans OrderBookEntry bidRel := ⟨fun a b c hab hbc => le_trans hbc hab⟩
  apply pairwise_priority_of_sorted _ bidRel bidPriority
  · exact List.sorted_insertionSort bidRel (l ++ [e])
  · intro c
    rw [insertionSort_filter_of_mates bidRel _
      (fun x y hx hy => by
        have hx2 : x.price = c := by simpa using hx
        have hy2 : y.price = c := by simpa using hy
        unfold bidRel
        rw [hx2, hy2])]
    rw [List.filter_append]
    apply List.pairwise_append.mpr
    refine ⟨?_, ?_, ?_⟩
    · exact pairwise_ts_filter_of_priority l bidPriority hwf bidPriority_ts c
    · by_cases hpe : e.price = c <;> simp [List.filter_cons, hpe]
    · intro x hx y hy
      have hx2 : x ∈ l := List.mem_of_mem_filter hx
      have hy2 : y = e := by
        have := List.mem_of_mem_filter hy
        simpa using this
      rw [hy2]
      exact hts x hx2
  · intro a b hle hne
    have : b.price < a.price := lt_of_le_of_ne hle (fun hx => hne hx.symm)
    exact Or.inl this
  · intro a b heq hts2
    exact Or.inr ⟨heq, hts2⟩

theorem asks_push_sort_pairwise (l : List OrderBookEntry) (e : OrderBookEntry)
    (hwf : l.Pairwise askPriority) (hts : ∀ x ∈ l, x.timestamp ≤ e.timestamp) :
    (List.insertionSort askRel (l ++ [e])).Pairwise askPriority := by
  have htotal : IsTotal OrderBookEntry askRel := ⟨fun a b => le_total a.price b.price⟩
  have htrans : IsTrans OrderBookEntry askRel := ⟨fun a b c hab hbc => le_trans hab hbc⟩
  apply pairwise_priority_of_sorted _ askRel askPriority
  · exact List.sorted_insertionSort askRel (l ++ [e])
  · intro c
    rw [insertionSort_filter_of_mates askRel _
      (fun x y hx hy => by
        have hx2 : x.price = c := by simpa using hx
        have hy2 : y.price = c := by simpa using hy
        unfold askRel
        rw [hx2, hy2])]
    rw [List.filter_append]
    apply List.pairwise_append.mpr
    refine ⟨?_, ?_, ?_⟩
    · exact pairwise_ts_filter_of_priority l askPriority hwf askPriority_ts c
    · by_cases hpe : e.price = c <;> simp [List.filter_cons, hpe]
    · intro x hx y hy
      have hx2 : x ∈ l := List.mem_of_mem_filter hx
      have hy2 : y = e := by
        have := List.mem_of_mem_filter hy
        simpa using this
      rw [hy2]
      exact hts x hx2
  · intro a b hle hne
    exact Or.inl (lt_of_le_of_ne hle hne)
  · intro a b heq hts2
    exact Or.inr ⟨heq, hts2⟩

/-! Matching mutates only `remainingQuantity` and removes entries, so the
`obKey` projection (price, timestamp, id) of the final book is a subsequence
of the initial one; the priority invariants and id uniqueness descend along
that subsequence. -/

theorem obKey_consumedEntry (e : OrderBookEntry) (q : ℤ) :
    obKey (consumedEntry e q) = obKey e := rfl

theorem eraseFirstById_sublist (l : List OrderBookEntry) (i : String) :
    List.Sublist (eraseFirstById l i) l := by
  induction l with
  | nil => simp [eraseFirstById]
  | cons x xs ih =>
      rw [eraseFirstById]
      by_cases hh : x.id = i
      · rw [if_pos hh]
        exact List.sublist_cons_self x xs
      · rw [if_neg hh]
        exact List.Sublist.cons₂ x ih

theorem map_obKey_eraseFirstById (l : List OrderBookEntry) (i : String) :
    List.Sublist ((eraseFirstById l i).map obKey) (l.map obKey) :=
  (eraseFirstById_sublist l i).map obKey

theorem map_obKey_setFirstById (l : List OrderBookEntry) (i : String)
    (e' : OrderBookEntry) (h : ∀ x ∈ l, x.id = i → obKey x = obKey e') :
    (setFirstById l i e').map obKey = l.map obKey := by
  induction l with
  | nil => rfl
  | cons x xs ih =>
      rw [setFirstById]
      by_cases hh : x.id = i
      · rw [if_pos hh, List.map_cons, List.map_cons,
          h x (List.mem_cons_self x xs) hh]
      · rw [if_neg hh, List.map_cons, List.map_cons,
          ih (fun y hy hid => h y (List.mem_cons_of_mem x hy) hid)]

theorem marketLoop_book_key (db : List Order) (inc : Order)
    (processed toProcess : List OrderBookEntry) (rem : ℤ) (ord : Order)
    (tr : List Trade) (txn : List Order) :
    List.Sublist ((marketLoop db inc processed toProcess rem ord tr txn).book.map obKey)
      ((processed ++ toProcess).map obKey) := by
  induction processed, toProcess, rem, ord, tr, txn using marketLoop.induct db inc with
  | case1 processed rem ord tr txn =>
      rw [marketLoop.eq_def]
      simp
  | case2 processed e rest rem ord tr txn hle =>
      rw [marketLoop.eq_def]
      simp only [if_pos hle]
      exact List.Sublist.refl _
  | case3 processed e rem ord tr txn hgt hdone =>
      rw [marketLoop.eq_def]
      simp only [if_neg hgt, if_pos hdone]
      exact (List.sublist_append_left processed [e]).map obKey
  | case4 processed e rem ord tr txn hgt hdone f rest' ih =>
      rw [marketLoop.eq_def]
      simp only [if_neg hgt, if_pos hdone]
      refine ih.trans ?_
      have h1 : (processed ++ [f]) ++ rest' = processed ++ f :: rest' := by simp
      rw [h1]
      exact (List.Sublist.append_left (List.sublist_cons_self e (f :: rest')) processed).map obKey
  | case5 processed e rest rem ord tr txn hgt hlive ih =>
      rw [marketLoop.eq_def]
      simp only [if_neg hgt, if_neg hlive]
      refine ih.trans ?_
      have h1 : ((processed ++ [consumedEntry e (min rem e.remainingQuantity)]) ++ rest).map obKey =
          (processed ++ e :: rest).map obKey := by
        simp [obKey_consumedEntry]
      rw [h1]

theorem limitLoop_book_key (db : List Order) (inc : Order)
    (matchable : List OrderBookEntry) :
    ∀ (book book0 : List OrderBookEntry) (rem : ℤ) (ord : Order)
      (tr : List Trade) (txn : List Order),
      (book0.map OrderBookEntry.id).Nodup →
      List.Sublist (book.map obKey) (book0.map obKey) →
      (∀ x ∈ matchable, x ∈ book0) →
      List.Sublist ((limitLoop db inc matchable book rem ord tr txn).book.map obKey)
        (book0.map obKey) := by
  induction matchable with
  | nil =>
      intro book book0 rem ord tr txn h0 hsub hm
      exact hsub
  | cons e rest ih =>
      intro book book0 rem ord tr txn h0 hsub hm
      rw [limitLoop.eq_def]
      by_cases hle : rem ≤ 0
      · simp only [if_pos hle]
        exact hsub
      · simp only [if_neg hle]
        refine ih _ book0 _ _ _ _ h0 ?_ (fun x hx => hm x (List.mem_cons_of_mem e hx))
        by_cases hfull : e.remainingQuantity - min rem e.remainingQuantity ≤ 0
        · rw [if_pos hfull]
          exact (map_obKey_eraseFirstById book e.id).trans hsub
        · rw [if_neg hfull]
          rw [map_obKey_setFirstById book e.id _ ?_]
          · exact hsub
          · intro x hx hid
            rw [obKey_consumedEntry]
            have hmem : obKey x ∈ book0.map obKey :=
              hsub.subset (List.mem_map_of_mem obKey hx)
            obtain ⟨y, hy, hkey⟩ := List.mem_map.mp hmem
            have hyid : y.id = x.id := congrArg (fun k => k.2.2) hkey
            have he0 : e ∈ book0 := hm e (List.mem_cons_self e rest)
            have hye : y = e := List.inj_on_of_nodup_map h0 hy he0 (by rw [hyid, hid])
            rw [← hkey, hye]

theorem pairwise_of_key_sublist (l l0 : List OrderBookEntry)
    (prio : OrderBookEntry → OrderBookEntry → Prop)
    (keyprio : (ℤ × ℕ × String) → (ℤ × ℕ × String) → Prop)
    (hfact : ∀ a b, prio a b ↔ keyprio (obKey a) (obKey b))
    (hsub : List.Sublist (l.map obKey) (l0.map obKey))
    (h0 : l0.Pairwise prio) : l.Pairwise prio := by
  have h1 : (l0.map obKey).Pairwise keyprio :=
    (List.pairwise_map).mpr (h0.imp (fun h => (hfact _ _).mp h))
  have h2 := h1.sublist hsub
  exact ((List.pairwise_map).mp h2).imp (fun h => (hfact _ _).mpr h)

theorem ids_sublist_of_key_sublist (l l0 : List OrderBookEntry)
    (hsub : List.Sublist (l.map obKey) (l0.map obKey)) :
    List.Sublist (l.map OrderBookEntry.id) (l0.map OrderBookEntry.id) := by
  have h1 := hsub.map (fun k : ℤ × ℕ × String => k.2.2)
  rw [List.map_map, List.map_map] at h1
  exact h1

theorem bookFor_addToOrderBook_self (books : List (String × OrderBook))
    (order : Order) (rq : Option ℤ) :
    bookFor (addToOrderBook books order rq) order.bondId =
      (if order.side = OrderSide.BUY then
        { bookFor books order.bondId with
            bids := List.insertionSort bidRel
              ((bookFor books order.bondId).bids ++ [addedEntry order rq]) }
       else
        { bookFor books order.bondId with
            asks := List.insertionSort askRel
              ((bookFor books order.bondId).asks ++ [addedEntry order rq]) }) := by
  simp only [addToOrderBook, getOrCreate_fst, bookFor, booksGet_booksSet_self,
    Option.getD_some]

theorem bookFor_addToOrderBook_other (books : List (String × OrderBook))
    (order : Order) (rq : Option ℤ) (b : String) (h : b ≠ order.bondId) :
    bookFor (addToOrderBook books order rq) b = bookFor books b := by
  simp only [addToOrderBook, bookFor]
  rw [booksGet_booksSet_ne _ _ _ _ h]
  rw [booksGet_getOrCreate_ne _ _ _ h]

theorem addToOrderBook_wf (books : List (String × OrderBook)) (order : Order)
    (rq : Option ℤ)
    (hwf : BookWF (bookFor books order.bondId))
    (hfresh : freshFor order (bookFor books order.bondId))
    (hts : tsMono order (bookFor books order.bondId)) :
    BookWF (bookFor (addToOrderBook books order rq) order.bondId) := by
  obtain ⟨hb, ha, hnod⟩ := hwf
  rw [List.map_append, List.nodup_append] at hnod
  obtain ⟨hnb, hna, hdisj⟩ := hnod
  have htsb : ∀ x ∈ (bookFor books order.bondId).bids, x.timestamp ≤ order.createdAt :=
    fun x hx => hts x (List.mem_append.mpr (Or.inl hx))
  have htsa : ∀ x ∈ (bookFor books order.bondId).asks, x.timestamp ≤ order.createdAt :=
    fun x hx => hts x (List.mem_append.mpr (Or.inr hx))
  have hfrb : order.id ∉ (bookFor books order.bondId).bids.map OrderBookEntry.id :=
    fun hx => hfresh (by rw [List.map_append]; exact List.mem_append.mpr (Or.inl hx))
  have hfra : order.id ∉ (bookFor books order.bondId).asks.map OrderBookEntry.id :=
    fun hx => hfresh (by rw [List.map_append]; exact List.mem_append.mpr (Or.inr hx))
  rw [bookFor_addToOrderBook_self]
  cases hside : order.side with
  | BUY =>
      rw [if_pos rfl]
      refine ⟨?_, ha, ?_⟩
      · exact bids_push_sort_pairwise _ _ hb htsb
      · have hperm : ((List.insertionSort bidRel
            ((bookFor books order.bondId).bids ++ [addedEntry order rq])).map
              OrderBookEntry.id).Perm
            (((bookFor books order.bondId).bids ++ [addedEntry order rq]).map
              OrderBookEntry.id) :=
          (List.perm_insertionSort _ _).map _
        rw [List.map_append]
        rw [List.Perm.nodup_iff (hperm.append_right _)]
        rw [List.map_append, List.nodup_append]
        refine ⟨?_, hna, ?_⟩
        · rw [List.nodup_append]
          refine ⟨hnb, List.nodup_singleton _, ?_⟩
          intro x hx hx2
          have hxe : x = order.id := by simpa [addedEntry] using hx2
          rw [hxe] at hx
          exact hfrb hx
        · intro x hx hx2
          rcases List.mem_append.mp hx with h | h
          · exact hdisj h hx2
          · have hxe : x = order.id := by simpa [addedEntry] using h
            rw [hxe] at hx2
            exact hfra hx2
  | SELL =>
      rw [if_neg (by decide)]
      refine ⟨hb, ?_, ?_⟩
      · exact asks_push_sort_pairwise _ _ ha htsa
      · have hperm : ((List.insertionSort askRel
            ((bookFor books order.bondId).asks ++ [addedEntry order rq])).map
              OrderBookEntry.id).Perm
            (((bookFor books order.bondId).asks ++ [addedEntry order rq]).map
              OrderBookEntry.id) :=
          (List.perm_insertionSort _ _).map _
        rw [List.map_append]
        rw [List.Perm.nodup_iff (hperm.append_left _)]
        rw [List.map_append, List.nodup_append]
        refine ⟨hnb, ?_, ?_⟩
        · rw [List.nodup_append]
          refine ⟨hna, List.nodup_singleton _, ?_⟩
          intro x hx hx2
          have hxe : x = order.id := by simpa [addedEntry] using hx2
          rw [hxe] at hx
          exact hfra hx
        · intro x hx hx2
          rcases List.mem_append.mp hx2 with h | h
          · exact hdisj hx h
          · have hxe : x = order.id := by simpa [addedEntry] using h
            rw [hxe] at hx
            exact hfrb hx

theorem marketRel_of_askPriority (a b : OrderBookEntry) (h : askPriority a b) :
    marketRel OrderSide.BUY a b := by
  unfold marketRel
  rcases h with h | h
  · exact le_of_lt h
  · exact le_of_eq h.1

theorem marketRel_of_bidPriority (a b : OrderBookEntry) (h : bidPriority a b) :
    marketRel OrderSide.SELL a b := by
  unfold marketRel
  rcases h with h | h
  · exact le_of_lt h
  · exact le_of_eq h.1.symm

theorem key_mem_transfer (l l0 : List OrderBookEntry)
    (hsub : List.Sublist (l.map obKey) (l0.map obKey)) :
    ∀ x ∈ l, ∃ y ∈ l0, y.price = x.price ∧ y.timestamp = x.timestamp ∧ y.id = x.id := by
  intro x hx
  have hmem : obKey x ∈ l0.map obKey := hsub.subset (List.mem_map_of_mem obKey hx)
  obtain ⟨y, hy, hkey⟩ := List.mem_map.mp hmem
  exact ⟨y, hy, congrArg (fun k => k.1) hkey, congrArg (fun k => k.2.1) hkey,
    congrArg (fun k => k.2.2) hkey⟩

theorem processMarketOrder_books_wf (s : EngineState) (order : Order)
    (hwf : BookWF (bookFor s.books order.bondId)) :
    BookWF (bookFor (processMarketOrder s order).1.books order.bondId) := by
  obtain ⟨hb, ha, hnod⟩ := hwf
  rw [List.map_append, List.nodup_append] at hnod
  obtain ⟨hnb, hna, hdisj⟩ := hnod
  have hfirst : bookFor (processMarketOrder s order).1.books order.bondId =
      (if order.side = OrderSide.BUY then
        { bookFor s.books order.bondId with
            asks := (marketLoop s.ordersDb order []
              (List.insertionSort (marketRel order.side)
                (if order.side = OrderSide.BUY then (bookFor s.books order.bondId).asks
                 else (bookFor s.books order.bondId).bids))
              order.quantity order [] []).book }
       else
        { bookFor s.books order.bondId with
            bids := (marketLoop s.ordersDb order []
              (List.insertionSort (marketRel order.side)
                (if order.side = OrderSide.BUY then (bookFor s.books order.bondId).asks
                 else (bookFor s.books order.bondId).bids))
              order.quantity order [] []).book }) := by
    simp only [processMarketOrder, getOrCreate_fst, bookFor, booksGet_booksSet_self,
      Option.getD_some]
  rw [hfirst]
  cases hside : order.side with
  | BUY =>
      rw [if_pos rfl]
      rw [if_pos rfl]
      have hLs : List.insertionSort (marketRel OrderSide.BUY)
          (bookFor s.books order.bondId).asks = (bookFor s.books order.bondId).asks :=
        List.Sorted.insertionSort_eq (ha.imp (fun h => marketRel_of_askPriority _ _ h))
      have hkey := marketLoop_book_key s.ordersDb order []
        (List.insertionSort (marketRel OrderSide.BUY) (bookFor s.books order.bondId).asks)
        order.quantity order [] []
      rw [hLs] at hkey
      rw [List.nil_append] at hkey
      rw [hLs]
      refine ⟨hb, ?_, ?_⟩
      · exact pairwise_of_key_sublist _ _ askPriority keyAskPriority
          (fun a b => Iff.rfl) hkey ha
      · rw [List.map_append, List.nodup_append]
        refine ⟨hnb, List.Nodup.sublist (ids_sublist_of_key_sublist _ _ hkey) hna, ?_⟩
        intro x hx hx2
        exact hdisj hx ((ids_sublist_of_key_sublist _ _ hkey).subset hx2)
  | SELL =>
      have hneq : ¬ (OrderSide.SELL = OrderSide.BUY) := by decide
      rw [if_neg hneq]
      rw [if_neg hneq]
      have hLs : List.insertionSort (marketRel OrderSide.SELL)
          (bookFor s.books order.bondId).bids = (bookFor s.books order.bondId).bids :=
        List.Sorted.insertionSort_eq (hb.imp (fun h => marketRel_of_bidPriority _ _ h))
      have hkey := marketLoop_book_key s.ordersDb order []
        (List.insertionSort (marketRel OrderSide.SELL) (bookFor s.books order.bondId).bids)
        order.quantity order [] []
      rw [hLs] at hkey
      rw [List.nil_append] at hkey
      rw [hLs]
      refine ⟨?_, ha, ?_⟩
      · exact pairwise_of_key_sublist _ _ bidPriority keyBidPriority
          (fun a b => Iff.rfl) hkey hb
      · rw [List.map_append, List.nodup_append]
        refine ⟨List.Nodup.sublist (ids_sublist_of_key_sublist _ _ hkey) hnb, hna, ?_⟩
        intro x hx hx2
        exact hdisj ((ids_sublist_of_key_sublist _ _ hkey).subset hx) hx2

theorem limitLoop_order_shape (db : List Order) (inc : Order)
    (matchable : List OrderBookEntry) :
    ∀ (book : List OrderBookEntry) (rem : ℤ) (ord : Order) (tr : List Trade)
      (txn : List Order),
      ∃ q : ℤ, (limitLoop db inc matchable book rem ord tr txn).order =
        { ord with filledQuantity := q } := by
  induction matchable with
  | nil =>
      intro book rem ord tr txn
      exact ⟨ord.filledQuantity, rfl⟩
  | cons e rest ih =>
      intro book rem ord tr txn
      rw [limitLoop.eq_def]
      by_cases hle : rem ≤ 0
      · simp only [if_pos hle]
        exact ⟨ord.filledQuantity, rfl⟩
      · simp only [if_neg hle]
        obtain ⟨q2, hq⟩ := ih _ _ (matchedOrder ord (min rem e.remainingQuantity)) _ _
        exact ⟨q2, by rw [hq]; rfl⟩

theorem processLimitOrder_books_wf (s : EngineState) (order : Order)
    (hwf : BookWF (bookFor s.books order.bondId))
    (hfresh : freshFor order (bookFor s.books order.bondId))
    (hts : tsMono order (bookFor s.books order.bondId)) :
    BookWF (bookFor (processLimitOrder s order).1.books order.bondId) := by
  obtain ⟨hb, ha, hnod⟩ := hwf
  rw [List.map_append, List.nodup_append] at hnod
  obtain ⟨hnb, hna, hdisj⟩ := hnod
  have htsb : ∀ x ∈ (bookFor s.books order.bondId).bids, x.timestamp ≤ order.createdAt :=
    fun x hx => hts x (List.mem_append.mpr (Or.inl hx))
  have htsa : ∀ x ∈ (bookFor s.books order.bondId).asks, x.timestamp ≤ order.createdAt :=
    fun x hx => hts x (List.mem_append.mpr (Or.inr hx))
  have hfrb : order.id ∉ (bookFor s.books order.bondId).bids.map OrderBookEntry.id :=
    fun hx => hfresh (by rw [List.map_append]; exact List.mem_append.mpr (Or.inl hx))
  have hfra : order.id ∉ (bookFor s.books order.bondId).asks.map OrderBookEntry.id :=
    fun hx => hfresh (by rw [List.map_append]; exact List.mem_append.mpr (Or.inr hx))
  simp only [processLimitOrder, getOrCreate_fst]
  cases hside : order.side with
  | BUY =>
      rw [if_pos rfl, if_pos rfl]
      set R := limitLoop s.ordersDb order
        (List.insertionSort (marketRel OrderSide.BUY)
          (List.filter (crosses OrderSide.BUY order.price) (bookFor s.books order.bondId).asks))
        (bookFor s.books order.bondId).asks order.quantity order [] [] with hR
      have hkey : List.Sublist (R.book.map obKey) ((bookFor s.books order.bondId).asks.map obKey) := by
        rw [hR]
        refine limitLoop_book_key s.ordersDb order _ _ _ _ _ _ _ hna (List.Sublist.refl _) ?_
        intro x hx
        exact List.mem_of_mem_filter (((List.perm_insertionSort _ _).mem_iff).mp hx)
      have hasksWF : R.book.Pairwise askPriority :=
        pairwise_of_key_sublist _ _ askPriority keyAskPriority (fun a b => Iff.rfl) hkey ha
      have hidsub := ids_sublist_of_key_sublist _ _ hkey
      have hafterWF : BookWF ⟨(bookFor s.books order.bondId).bids, R.book⟩ := by
        refine ⟨hb, hasksWF, ?_⟩
        rw [List.map_append, List.nodup_append]
        refine ⟨hnb, List.Nodup.sublist hidsub hna, ?_⟩
        intro x hx hx2
        exact hdisj hx (hidsub.subset hx2)
      obtain ⟨qf, hshape⟩ := limitLoop_order_shape s.ordersDb order _ _ _ _ _ _
      rw [← hR] at hshape
      by_cases hrem : R.remaining ≤ 0
      · rw [if_pos hrem]
        have : bookFor (booksSet (getOrCreateOrderBook s.books order.bondId).2 order.bondId
            ⟨(bookFor s.books order.bondId).bids, R.book⟩) order.bondId =
            ⟨(bookFor s.books order.bondId).bids, R.book⟩ := by
          rw [bookFor, booksGet_booksSet_self]
          rfl
        rw [this]
        exact hafterWF
      · rw [if_neg hrem]
        rw [if_neg hrem]
        have hbooks2 : bookFor (booksSet (getOrCreateOrderBook s.books order.bondId).2 order.bondId
            ⟨(bookFor s.books order.bondId).bids, R.book⟩) order.bondId =
            ⟨(bookFor s.books order.bondId).bids, R.book⟩ := by
          rw [bookFor, booksGet_booksSet_self]
          rfl
        have hO2id : (if R.order.filledQuantity > 0 then
            { R.order with status := OrderStatus.PARTIALLY_FILLED } else R.order).id = order.id := by
          rw [hshape]
          split <;> rfl
        have hO2bond : (if R.order.filledQuantity > 0 then
            { R.order with status := OrderStatus.PARTIALLY_FILLED } else R.order).bondId = order.bondId := by
          rw [hshape]
          split <;> rfl
        have hO2ts : (if R.order.filledQuantity > 0 then
            { R.order with status := OrderStatus.PARTIALLY_FILLED } else R.order).createdAt = order.createdAt := by
          rw [hshape]
          split <;> rfl
        have happ := addToOrderBook_wf
          (booksSet (getOrCreateOrderBook s.books order.bondId).2 order.bondId
            ⟨(bookFor s.books order.bondId).bids, R.book⟩)
          (if R.order.filledQuantity > 0 then
            { R.order with status := OrderStatus.PARTIALLY_FILLED } else R.order)
          (some R.remaining) ?_ ?_ ?_
        · rw [hO2bond] at happ
          exact happ
        · rw [hO2bond, hbooks2]
          exact hafterWF
        · rw [freshFor, hO2bond, hO2id, hbooks2]
          intro hmem
          rw [List.map_append] at hmem
          rcases List.mem_append.mp hmem with h | h
          · exact hfrb h
          · exact hfra (hidsub.subset h)
        · rw [tsMono, hO2bond, hO2ts, hbooks2]
          intro e he
          rcases List.mem_append.mp he with h | h
          · exact htsb e h
          · obtain ⟨y, hy, _, hyts, _⟩ := key_mem_transfer _ _ hkey e h
            rw [← hyts]
            exact htsa y hy
  | SELL =>
      have hneq : ¬ (OrderSide.SELL = OrderSide.BUY) := by decide
      rw [if_neg hneq, if_neg hneq]
      set R := limitLoop s.ordersDb order
        (List.insertionSort (marketRel OrderSide.SELL)
          (List.filter (crosses OrderSide.SELL order.price) (bookFor s.books order.bondId).bids))
        (bookFor s.books order.bondId).bids order.quantity order [] [] with hR
      have hkey : List.Sublist (R.book.map obKey) ((bookFor s.books order.bondId).bids.map obKey) := by
        rw [hR]
        refine limitLoop_book_key s.ordersDb order _ _ _ _ _ _ _ hnb (List.Sublist.refl _) ?_
        intro x hx
        exact List.mem_of_mem_filter (((List.perm_insertionSort _ _).mem_iff).mp hx)
      have hbidsWF : R.book.Pairwise bidPriority :=
        pairwise_of_key_sublist _ _ bidPriority keyBidPriority (fun a b => Iff.rfl) hkey hb
      have hidsub := ids_sublist_of_key_sublist _ _ hkey
      have hafterWF : BookWF ⟨R.book, (bookFor s.books order.bondId).asks⟩ := by
        refine ⟨hbidsWF, ha, ?_⟩
        rw [List.map_append, List.nodup_append]
        refine ⟨List.Nodup.sublist hidsub hnb, hna, ?_⟩
        intro x hx hx2
        exact hdisj (hidsub.subset hx) hx2
      obtain ⟨qf, hshape⟩ := limitLoop_order_shape s.ordersDb order _ _ _ _ _ _
      rw [← hR] at hshape
      by_cases hrem : R.remaining ≤ 0
      · rw [if_pos hrem]
        have : bookFor (booksSet (getOrCreateOrderBook s.books order.bondId).2 order.bondId
            ⟨R.book, (bookFor s.books order.bondId).asks⟩) order.bondId =
            ⟨R.book, (bookFor s.books order.bondId).asks⟩ := by
          rw [bookFor, booksGet_booksSet_self]
          rfl
        rw [this]
        exact hafterWF
      · rw [if_neg hrem]
        rw [if_neg hrem]
        have hbooks2 : bookFor (booksSet (getOrCreateOrderBook s.books order.bondId).2 order.bondId
            ⟨R.book, (bookFor s.books order.bondId).asks⟩) order.bondId =
            ⟨R.book, (bookFor s.books order.bondId).asks⟩ := by
          rw [bookFor, booksGet_booksSet_self]
          rfl
        have hO2id : (if R.order.filledQuantity > 0 then
            { R.order with status := OrderStatus.PARTIALLY_FILLED } else R.order).id = order.id := by
          rw [hshape]
          split <;> rfl
        have hO2bond : (if R.order.filledQuantity > 0 then
            { R.order with status := OrderStatus.PARTIALLY_FILLED } else R.order).bondId = order.bondId := by
          rw [hshape]
          split <;> rfl
        have hO2ts : (if R.order.filledQuantity > 0 then
            { R.order with status := OrderStatus.PARTIALLY_FILLED } else R.order).createdAt = order.createdAt := by
          rw [hshape]
          split <;> rfl
        have happ := addToOrderBook_wf
          (booksSet (getOrCreateOrderBook s.books order.bondId).2 order.bondId
            ⟨R.book, (bookFor s.books order.bondId).asks⟩)
          (if R.order.filledQuantity > 0 then
            { R.order with status := OrderStatus.PARTIALLY_FILLED } else R.order)
          (some R.remaining) ?_ ?_ ?_
        · rw [hO2bond] at happ
          exact happ
        · rw [hO2bond, hbooks2]
          exact hafterWF
        · rw [freshFor, hO2bond, hO2id, hbooks2]
          intro hmem
          rw [List.map_append] at hmem
          rcases List.mem_append.mp hmem with h | h
          · exact hfrb (hidsub.subset h)
          · exact hfra h
        · rw [tsMono, hO2bond, hO2ts, hbooks2]
          intro e he
          rcases List.mem_append.mp he with h | h
          · obtain ⟨y, hy, _, hyts, _⟩ := key_mem_transfer _ _ hkey e h
            rw [← hyts]
            exact htsb y hy
          · exact htsa e h

theorem cancelOrder_books_wf (s : EngineState) (oid bond : String)
    (hwf : BookWF (bookFor s.books bond)) :
    BookWF (bookFor (cancelOrder s oid).books bond) := by
  unfold cancelOrder
  cases hf : findOrder s.ordersDb oid with
  | none => exact hwf
  | some o =>
      simp only []
      by_cases hbond : bond = o.bondId
      · subst hbond
        obtain ⟨hb, ha, hnod⟩ := hwf
        rw [List.map_append] at hnod
        have hfinal : bookFor (booksSet (getOrCreateOrderBook s.books o.bondId).2 o.bondId
            (if o.side = OrderSide.BUY then
              { (getOrCreateOrderBook s.books o.bondId).1 with
                  bids := eraseFirstById
                    (if o.side = OrderSide.BUY then (getOrCreateOrderBook s.books o.bondId).1.bids
                     else (getOrCreateOrderBook s.books o.bondId).1.asks) oid }
             else
              { (getOrCreateOrderBook s.books o.bondId).1 with
                  asks := eraseFirstById
                    (if o.side = OrderSide.BUY then (getOrCreateOrderBook s.books o.bondId).1.bids
                     else (getOrCreateOrderBook s.books o.bondId).1.asks) oid })) o.bondId =
            (if o.side = OrderSide.BUY then
              { bookFor s.books o.bondId with
                  bids := eraseFirstById (bookFor s.books o.bondId).bids oid }
             else
              { bookFor s.books o.bondId with
                  asks := eraseFirstById (bookFor s.books o.bondId).asks oid }) := by
          cases hside : o.side with
          | BUY =>
              rw [if_pos rfl, if_pos rfl, if_pos rfl]
              rw [getOrCreate_fst, bookFor, booksGet_booksSet_self]
              rfl
          | SELL =>
              have hneq : ¬ (OrderSide.SELL = OrderSide.BUY) := by decide
              rw [if_neg hneq, if_neg hneq, if_neg hneq]
              rw [getOrCreate_fst, bookFor, booksGet_booksSet_self]
              rfl
        rw [hfinal]
        cases hside : o.side with
        | BUY =>
            rw [if_pos rfl]
            refine ⟨hb.sublist (eraseFirstById_sublist _ _), ha, ?_⟩
            rw [List.map_append]
            exact hnod.sublist
              (List.Sublist.append ((eraseFirstById_sublist _ _).map _) (List.Sublist.refl _))
        | SELL =>
            rw [if_neg (by decide : ¬ (OrderSide.SELL = OrderSide.BUY))]
            refine ⟨hb, ha.sublist (eraseFirstById_sublist _ _), ?_⟩
            rw [List.map_append]
            exact hnod.sublist
              (List.Sublist.append (List.Sublist.refl _) ((eraseFirstById_sublist _ _).map _))
      · have hgen : ∀ bk : OrderBook,
            bookFor (booksSet (getOrCreateOrderBook s.books o.bondId).2 o.bondId bk) bond =
              bookFor s.books bond := by
          intro bk
          rw [bookFor, booksGet_booksSet_ne _ _ _ _ hbond, booksGet_getOrCreate_ne _ _ _ hbond]
          rfl
        rw [hgen]
        exact hwf

theorem bookFor_add_none_bids (books : List (String × OrderBook)) (o : Order)
    (bond : String) :
    ((bookFor (addToOrderBook books o none) bond).bids).Perm
      ((bookFor books bond).bids ++
        (if o.bondId = bond ∧ o.side = OrderSide.BUY then [recoveryEntry o] else [])) := by
  by_cases hb : o.bondId = bond
  · subst hb
    rw [bookFor_addToOrderBook_self]
    cases hside : o.side with
    | BUY =>
        rw [if_pos rfl, if_pos ⟨rfl, rfl⟩]
        exact List.perm_insertionSort _ _
    | SELL =>
        rw [if_neg (by simp), if_neg (by simp)]
        simp
  · rw [bookFor_addToOrderBook_other _ _ _ _ (Ne.symm hb)]
    rw [if_neg (fun hc => hb hc.1)]
    simp

theorem bookFor_add_none_asks (books : List (String × OrderBook)) (o : Order)
    (bond : String) :
    ((bookFor (addToOrderBook books o none) bond).asks).Perm
      ((bookFor books bond).asks ++
        (if o.bondId = bond ∧ o.side = OrderSide.SELL then [recoveryEntry o] else [])) := by
  by_cases hb : o.bondId = bond
  · subst hb
    rw [bookFor_addToOrderBook_self]
    cases hside : o.side with
    | BUY =>
        rw [if_pos rfl, if_neg (by simp)]
        simp
    | SELL =>
        rw [if_neg (by simp), if_pos ⟨rfl, rfl⟩]
        exact List.perm_insertionSort _ _
  · rw [bookFor_addToOrderBook_other _ _ _ _ (Ne.symm hb)]
    rw [if_neg (fun hc => hb hc.1)]
    simp

theorem recovery_fold_perm (os : List Order) :
    ∀ (books : List (String × OrderBook)) (bond : String),
    ((bookFor (os.foldl (fun bks o => addToOrderBook bks o none) books) bond).bids).Perm
      ((bookFor books bond).bids ++
        (os.filter (fun o => decide (o.bondId = bond ∧ o.side = OrderSide.BUY))).map
          recoveryEntry) ∧
    ((bookFor (os.foldl (fun bks o => addToOrderBook bks o none) books) bond).asks).Perm
      ((bookFor books bond).asks ++
        (os.filter (fun o => decide (o.bondId = bond ∧ o.side = OrderSide.SELL))).map
          recoveryEntry) := by
  induction os with
  | nil => intro books bond; simp
  | cons o os ih =>
      intro books bond
      simp only [List.foldl_cons]
      obtain ⟨ihb, iha⟩ := ih (addToOrderBook books o none) bond
      constructor
      · refine ihb.trans ?_
        refine ((bookFor_add_none_bids books o bond).append_right _).trans ?_
        rw [List.append_assoc, List.filter_cons]
        by_cases hc : o.bondId = bond ∧ o.side = OrderSide.BUY
        · simp [hc]
        · simp [hc]
      · refine iha.trans ?_
        refine ((bookFor_add_none_asks books o bond).append_right _).trans ?_
        rw [List.append_assoc, List.filter_cons]
        by_cases hc : o.bondId = bond ∧ o.side = OrderSide.SELL
        · simp [hc]
        · simp [hc]

/-! Claim theorems. -/

/-- Claim C1 (counterexample, code bug): on Scenario D's input — a LIMIT BUY
at price 10 for quantity 100 with time-in-force FOK against a book whose only
crossing asks total 60 — the engine does not reject the order: it executes a
trade, marks the order PARTIALLY_FILLED, and rests the 40 remainder on the
bid side. `timeInForce` is never consulted anywhere in the engine. -/
theorem c1_fok_not_rejected :
    (processOrder fokState fokOrder).2.1 ≠ [] ∧
    (processOrder fokState fokOrder).2.2.status = OrderStatus.PARTIALLY_FILLED ∧
    booksGet (processOrder fokState fokOrder).1.books "B" =
      some ⟨[⟨"F1", 10, 100, 40, 2⟩], []⟩ :=
  ⟨by decide, by decide, by decide⟩

/-- Claim C2 (counterexample, code bug): a market BUY of 10 against a resting
ask of 20 whose transaction fails at its second database write (the
opposite-order save) rolls the Order and Trade stores back, but the in-memory
book keeps the ask entry decremented from 20 to 10: the book is not left as
it was before the attempt. -/
theorem c2_rollback_leaks_book_mutation :
    processMarketOrderF 1 c2State c2Market = Except.error c2Leak ∧
    c2Leak.ordersDb = c2State.ordersDb ∧
    c2Leak.tradesDb = c2State.tradesDb ∧
    c2Leak.books ≠ c2State.books :=
  ⟨by rfl, by rfl, by rfl, by decide⟩

/-- Claim C6 (counterexample, code bug): unmatched remainders rest in the
book regardless of time-in-force — an IOC limit BUY and a FOK limit BUY, each
against an empty book, are both admitted as resting bids. -/
theorem c6_ioc_fok_rest_in_book :
    booksGet (processOrder emptyState iocOrder).1.books "B" =
      some ⟨[⟨"I1", 10, 5, 5, 1⟩], []⟩ ∧
    booksGet (processOrder emptyState fokRestOrder).1.books "B" =
      some ⟨[⟨"K1", 11, 7, 7, 1⟩], []⟩ :=
  ⟨by decide, by decide⟩

/-- Claim C7 (counterexample, code bug): recovery loads only PENDING orders.
From a store holding a PARTIALLY_FILLED sell (remaining 60) and a PENDING
buy, `initializeOrderBooks` rebuilds a book containing only the PENDING
order's entry — the partially filled remainder that rested before shutdown is
lost. -/
theorem c7_recovery_drops_partially_filled :
    initializeOrderBooks [pfOrder, pendOrder] [] =
      [("B", ⟨[⟨"P2", 8, 30, 30, 2⟩], []⟩)] := by
  decide

/-- Claim C8 (counterexample): `initializeOrderBooks` does not clear the
existing books, so running recovery twice over the same persisted orders
duplicates every entry instead of reproducing the single-run book. -/
theorem c8_second_run_duplicates :
    initializeOrderBooks [pendOrder] (initializeOrderBooks [pendOrder] []) ≠
      initializeOrderBooks [pendOrder] [] := by
  decide

/-- Claim C8 (amended): a single recovery run starting from the empty book
state is uniquely determined by the persisted orders — for every bond, the
rebuilt bid side is, up to the price-sorted arrangement, exactly one entry per
loaded PENDING BUY order of that bond carrying its remaining quantity
(quantity minus filled quantity), its price and its original timestamp, and
likewise the ask side for SELL orders. Recovery is not idempotent from a
non-empty state, since the books are never cleared first. -/
theorem c8_single_run_characterization (db : List Order) (bond : String) :
    ((bookFor (initializeOrderBooks db []) bond).bids).Perm
      (((pendingByCreatedAt db).filter
          (fun o => decide (o.bondId = bond ∧ o.side = OrderSide.BUY))).map
        recoveryEntry) ∧
    ((bookFor (initializeOrderBooks db []) bond).asks).Perm
      (((pendingByCreatedAt db).filter
          (fun o => decide (o.bondId = bond ∧ o.side = OrderSide.SELL))).map
        recoveryEntry) := by
  obtain ⟨hb, ha⟩ := recovery_fold_perm (pendingByCreatedAt db) [] bond
  constructor
  · simpa [initializeOrderBooks, bookFor, booksGet] using hb
  · simpa [initializeOrderBooks, bookFor, booksGet] using ha

/-- Claim C3: every book-mutating operation — admitting a resting order,
matching a market order, matching a limit order (including admission of its
remainder), and cancellation — preserves the book invariant: bids sorted by
descending price with ties by ascending admission timestamp, asks sorted by
ascending price with ties by ascending admission timestamp, and no order id
occurring twice in the book. Admission requires the order's id to be fresh
and its timestamp to be no older than the resting entries, which is how the
submission path produces orders; the stable price-only sort then keeps FIFO
order within each price level. -/
theorem c3_book_invariant_preserved :
    (∀ (books : List (String × OrderBook)) (order : Order) (rq : Option ℤ),
        BookWF (bookFor books order.bondId) →
        freshFor order (bookFor books order.bondId) →
        tsMono order (bookFor books order.bondId) →
        BookWF (bookFor (addToOrderBook books order rq) order.bondId)) ∧
    (∀ (s : EngineState) (order : Order),
        BookWF (bookFor s.books order.bondId) →
        BookWF (bookFor (processMarketOrder s order).1.books order.bondId)) ∧
    (∀ (s : EngineState) (order : Order),
        BookWF (bookFor s.books order.bondId) →
        freshFor order (bookFor s.books order.bondId) →
        tsMono order (bookFor s.books order.bondId) →
        BookWF (bookFor (processLimitOrder s order).1.books order.bondId)) ∧
    (∀ (s : EngineState) (oid bond : String),
        BookWF (bookFor s.books bond) →
        BookWF (bookFor (cancelOrder s oid).books bond)) :=
  ⟨addToOrderBook_wf, processMarketOrder_books_wf, processLimitOrder_books_wf,
   cancelOrder_books_wf⟩

/-- Witness for C3 at concrete inputs: admission, market matching, limit
matching and cancellation on small well-formed books. -/
theorem c3_book_invariant_witness :
    BookWF (bookFor (addToOrderBook c9State.books fokOrder none) fokOrder.bondId) ∧
    BookWF (bookFor (processMarketOrder c2State c2Market).1.books c2Market.bondId) ∧
    BookWF (bookFor (processLimitOrder fokState fokOrder).1.books fokOrder.bondId) ∧
    BookWF (bookFor (cancelOrder c9State "R1").books "B") :=
  ⟨c3_book_invariant_preserved.1 c9State.books fokOrder none (by decide) (by decide)
      (by decide),
   c3_book_invariant_preserved.2.1 c2State c2Market (by decide),
   c3_book_invariant_preserved.2.2.1 fokState fokOrder (by decide) (by decide) (by decide),
   c3_book_invariant_preserved.2.2.2 c9State "R1" "B" (by decide)⟩

/-- Claim C4: every trade produced by processing an order carries the price
of some entry resting on the opposite side of the pre-state book (the maker's
price), and a market order's own price field never influences which trades
are produced. -/
theorem c4_trade_price (s : EngineState) (order : Order) :
    (∀ t ∈ (processOrder s order).2.1,
        ∃ e ∈ oppositeEntries s order, t.price = e.price) ∧
    (∀ p q : ℤ,
      (processMarketOrder s { order with price := p }).2.1 =
        (processMarketOrder s { order with price := q }).2.1) := by
  constructor
  · intro t ht
    cases horder : order.orderType with
    | MARKET =>
        simp only [processOrder, horder, processMarketOrder] at ht
        rcases marketLoop_trades_from _ _ _ _ _ _ _ _ t ht with h | ⟨e, he, q, hq⟩
        · exact absurd h (List.not_mem_nil t)
        · have he' := ((List.perm_insertionSort _ _).mem_iff).mp he
          rw [getOrCreate_fst] at he'
          refine ⟨e, ?_, ?_⟩
          · unfold oppositeEntries
            exact he'
          · rw [hq]
            rfl
    | LIMIT =>
        simp only [processOrder, horder, processLimitOrder] at ht
        rcases limitLoop_trades_from _ _ _ _ _ _ _ _ t ht with h | ⟨e, he, q, hq⟩
        · exact absurd h (List.not_mem_nil t)
        · have he' := ((List.perm_insertionSort _ _).mem_iff).mp he
          have he'' := (List.mem_filter.mp he').1
          rw [getOrCreate_fst] at he''
          refine ⟨e, ?_, ?_⟩
          · unfold oppositeEntries
            exact he''
          · rw [hq]
            rfl
    | STOP_LOSS =>
        simp only [processOrder, horder] at ht
        exact absurd ht (List.not_mem_nil t)
    | ICEBERG =>
        simp only [processOrder, horder] at ht
        exact absurd ht (List.not_mem_nil t)
  · intro p q
    simp only [processMarketOrder]
    rw [marketLoop_price_irrel s.ordersDb order p, marketLoop_price_irrel s.ordersDb order q]
    rw [marketLoop_trades_ord_irrel s.ordersDb order _ _ _ _ _ _ order]
    exact marketLoop_trades_ord_irrel s.ordersDb order _ _ _ order _ _
      { order with price := q }

/-- Witness for C4 at the concrete trade Scenario D produces. -/
theorem c4_trade_price_witness :
    ∃ e ∈ oppositeEntries fokState fokOrder,
      (⟨"B", "F1", "A1", "uF", "uA", 60, 9, 540⟩ : Trade).price = e.price :=
  (c4_trade_price fokState fokOrder).1 ⟨"B", "F1", "A1", "uF", "uA", 60, 9, 540⟩
    (by decide)

/-- Claim C5: for every single submission (a positive-quantity order entering
in status PENDING), the quantities of the trades generated by processing it
sum to at most the submitted quantity, with equality exactly when the order's
final status is FILLED. -/
theorem c5_conservation (s : EngineState) (order : Order)
    (hq : 0 < order.quantity) (hs : order.status = OrderStatus.PENDING) :
    tradesQuantity (processOrder s order).2.1 ≤ order.quantity ∧
    (tradesQuantity (processOrder s order).2.1 = order.quantity ↔
      (processOrder s order).2.2.status = OrderStatus.FILLED) := by
  cases ht : order.orderType with
  | MARKET =>
      simp only [processOrder, ht]
      exact processMarketOrder_conserve s order hq
  | LIMIT =>
      simp only [processOrder, ht]
      exact processLimitOrder_conserve s order hq hs
  | STOP_LOSS =>
      simp only [processOrder, ht, tradesQuantity_nil]
      refine ⟨by omega, ?_, ?_⟩
      · intro hx
        exact absurd hx (by omega)
      · intro hx
        rw [hs] at hx
        exact absurd hx (by decide)
  | ICEBERG =>
      simp only [processOrder, ht, tradesQuantity_nil]
      refine ⟨by omega, ?_, ?_⟩
      · intro hx
        exact absurd hx (by omega)
      · intro hx
        rw [hs] at hx
        exact absurd hx (by decide)

/-- Witness for C5 at a concrete limit order against the empty book. -/
theorem c5_conservation_witness :
    tradesQuantity (processOrder emptyState iocOrder).2.1 ≤ iocOrder.quantity ∧
    (tradesQuantity (processOrder emptyState iocOrder).2.1 = iocOrder.quantity ↔
      (processOrder emptyState iocOrder).2.2.status = OrderStatus.FILLED) :=
  c5_conservation emptyState iocOrder (by decide) (by decide)

/-- Claim C9: cancelling an order in a non-terminal state whose entry rests
in its instrument's book removes that entry (its id no longer appears on
either side), persists the order as CANCELLED, and a subsequent order on the
same instrument can produce no trade referencing the cancelled order. The
book is assumed well-formed (no duplicate ids) and the subsequent order has a
different id. -/
theorem c9_cancel_removes_and_persists (s : EngineState) (o o2 : Order)
    (hfind : findOrder s.ordersDb o.id = some o)
    (hstat : o.status = OrderStatus.PENDING ∨ o.status = OrderStatus.PARTIALLY_FILLED)
    (hnodup : (((bookFor s.books o.bondId).bids ++ (bookFor s.books o.bondId).asks).map
      OrderBookEntry.id).Nodup)
    (hrest : o.id ∈ (if o.side = OrderSide.BUY then (bookFor s.books o.bondId).bids
      else (bookFor s.books o.bondId).asks).map OrderBookEntry.id)
    (hb2 : o2.bondId = o.bondId) (hid2 : o2.id ≠ o.id) :
    o.id ∉ ((bookFor (cancelOrder s o.id).books o.bondId).bids ++
        (bookFor (cancelOrder s o.id).books o.bondId).asks).map OrderBookEntry.id ∧
    findOrder (cancelOrder s o.id).ordersDb o.id =
      some { o with status := OrderStatus.CANCELLED } ∧
    ∀ t ∈ (processOrder (cancelOrder s o.id) o2).2.1,
      t.buyOrderId ≠ o.id ∧ t.sellOrderId ≠ o.id := by
  rw [List.map_append, List.nodup_append] at hnodup
  obtain ⟨hnb, hna, hdisj⟩ := hnodup
  have hbook : bookFor (cancelOrder s o.id).books o.bondId =
      (if o.side = OrderSide.BUY then
        { bookFor s.books o.bondId with
            bids := eraseFirstById (bookFor s.books o.bondId).bids o.id }
       else
        { bookFor s.books o.bondId with
            asks := eraseFirstById (bookFor s.books o.bondId).asks o.id }) := by
    simp only [cancelOrder, hfind, getOrCreate_fst, bookFor, booksGet_booksSet_self,
      Option.getD_some]
    split <;> rfl
  have hgone : o.id ∉ ((bookFor (cancelOrder s o.id).books o.bondId).bids ++
      (bookFor (cancelOrder s o.id).books o.bondId).asks).map OrderBookEntry.id := by
    rw [hbook, List.map_append]
    intro hmem
    cases hside : o.side with
    | BUY =>
        rw [hside] at hrest
        simp only [if_pos rfl] at hrest
        rw [if_pos hside] at hmem
        rcases List.mem_append.mp hmem with h | h
        · exact eraseFirstById_not_mem _ _ hnb h
        · exact hdisj hrest h
    | SELL =>
        rw [hside] at hrest
        simp only [if_neg (by decide : ¬ (OrderSide.SELL = OrderSide.BUY))] at hrest
        rw [if_neg (by rw [hside]; decide)] at hmem
        rcases List.mem_append.mp hmem with h | h
        · exact hdisj.symm hrest h
        · exact eraseFirstById_not_mem _ _ hna h
  refine ⟨hgone, ?_, ?_⟩
  · show findOrder (cancelOrder s o.id).ordersDb o.id = _
    simp only [cancelOrder, hfind]
    exact findOrder_saveOrder_self s.ordersDb { o with status := OrderStatus.CANCELLED }
  · intro t ht
    have hfresh : ∀ e : OrderBookEntry,
        e ∈ (bookFor (cancelOrder s o.id).books o2.bondId).bids ∨
        e ∈ (bookFor (cancelOrder s o.id).books o2.bondId).asks → e.id ≠ o.id := by
      intro e he heq
      rw [hb2] at he
      apply hgone
      rw [List.map_append]
      rcases he with he | he
      · have hm := List.mem_map_of_mem OrderBookEntry.id he
        rw [heq] at hm
        exact List.mem_append.mpr (Or.inl hm)
      · have hm := List.mem_map_of_mem OrderBookEntry.id he
        rw [heq] at hm
        exact List.mem_append.mpr (Or.inr hm)
    have main : ∃ e : OrderBookEntry,
        (e ∈ (bookFor (cancelOrder s o.id).books o2.bondId).bids ∨
         e ∈ (bookFor (cancelOrder s o.id).books o2.bondId).asks) ∧
        ∃ q : ℤ, t = mkTrade (cancelOrder s o.id).ordersDb o2 e q := by
      cases horder : o2.orderType with
      | MARKET =>
          simp only [processOrder, horder, processMarketOrder] at ht
          rcases marketLoop_trades_from _ _ _ _ _ _ _ _ t ht with h | ⟨e, he, q, hq⟩
          · exact absurd h (List.not_mem_nil t)
          · have he' := ((List.perm_insertionSort _ _).mem_iff).mp he
            rw [getOrCreate_fst] at he'
            refine ⟨e, ?_, q, hq⟩
            split at he'
            · exact Or.inr he'
            · exact Or.inl he'
      | LIMIT =>
          simp only [processOrder, horder, processLimitOrder] at ht
          rcases limitLoop_trades_from _ _ _ _ _ _ _ _ t ht with h | ⟨e, he, q, hq⟩
          · exact absurd h (List.not_mem_nil t)
          · have he' := (List.mem_filter.mp (((List.perm_insertionSort _ _).mem_iff).mp he)).1
            rw [getOrCreate_fst] at he'
            refine ⟨e, ?_, q, hq⟩
            split at he'
            · exact Or.inr he'
            · exact Or.inl he'
      | STOP_LOSS =>
          simp only [processOrder, horder] at ht
          exact absurd ht (List.not_mem_nil t)
      | ICEBERG =>
          simp only [processOrder, horder] at ht
          exact absurd ht (List.not_mem_nil t)
    obtain ⟨e, he, q, hq⟩ := main
    have heid := hfresh e he
    rw [hq]
    unfold mkTrade
    cases hside2 : o2.side <;> constructor <;> simp [hside2, hid2, heid]

/-- Witness for C9: Scenario C — a resting LIMIT BUY (price 50, qty 20) is
cancelled, then a crossing LIMIT SELL at 50 arrives. -/
theorem c9_cancel_witness :
    "R1" ∉ ((bookFor (cancelOrder c9State "R1").books "B").bids ++
        (bookFor (cancelOrder c9State "R1").books "B").asks).map OrderBookEntry.id ∧
    findOrder (cancelOrder c9State "R1").ordersDb "R1" =
      some { c9Buy with status := OrderStatus.CANCELLED } ∧
    ∀ t ∈ (processOrder (cancelOrder c9State "R1") c9Sell).2.1,
      t.buyOrderId ≠ "R1" ∧ t.sellOrderId ≠ "R1" :=
  c9_cancel_removes_and_persists c9State c9Buy c9Sell (by decide)
    (Or.inl (by decide)) (by decide) (by decide) (by decide) (by decide)

/-- Claim C10: for an incoming order whose type is neither MARKET nor LIMIT
(STOP_LOSS or ICEBERG), `processOrder` returns an empty trade list and the
order object unchanged, and leaves the books and both stores untouched. -/
theorem c10_other_types_noop (s : EngineState) (order : Order)
    (h : order.orderType = OrderType.STOP_LOSS ∨ order.orderType = OrderType.ICEBERG) :
    processOrder s order = (s, [], order) := by
  rcases h with h | h <;> simp [processOrder, h]

/-- Witness for C10 at a concrete STOP_LOSS order. -/
theorem c10_other_types_noop_witness :
    processOrder emptyState stopOrder = (emptyState, [], stopOrder) :=
  c10_other_types_noop emptyState stopOrder (Or.inl rfl)

end SetuBond
